import Mathlib

/-!
Verification of the episode-renamer engine (src/episode-renamer/src/lib.ts and
src/episode-renamer/src/index.ts) against its specification.

The TypeScript source is shallowly embedded: strings are Lean `String`s, and the
character-level work is done on `List Char` (`String.data`).  JavaScript's
`\s` (the whitespace class used by `trim` and `split(/\s+/)`) is modelled by the
explicit code-point set `isJsWS`; `toUpperCase`/`toLowerCase` are modelled by
the ASCII case maps (the only case-relevant inputs here are ASCII).  Functions
that recurse on a shrinking suffix carry an explicit fuel argument equal to the
input length, so that every definition evaluates inside the kernel; the
canonical recursion equations are proved as lemmas below.
-/

/-- Code points of JavaScript's `\s` character class (WhiteSpace plus
LineTerminator), the set used by `String.prototype.trim` and `/\s+/`. -/
def wsCodes : List Nat :=
  [9, 10, 11, 12, 13, 32, 160, 5760, 8192, 8193, 8194, 8195, 8196, 8197, 8198,
   8199, 8200, 8201, 8202, 8232, 8233, 8239, 8287, 12288, 65279]

/-- `c` is a JavaScript whitespace character. -/
def isJsWS (c : Char) : Bool := decide (c.toNat ∈ wsCodes)

/-- Negation of `isJsWS`, the "inside a word" predicate. -/
def notWS (c : Char) : Bool := !(isJsWS c)

/-- `String.prototype.toUpperCase`, restricted to the ASCII case rule
(code points 97–122 map down by 32, everything else is fixed). -/
def toUpperJ (c : Char) : Char :=
  if 97 ≤ c.toNat ∧ c.toNat ≤ 122 then Char.ofNat (c.toNat - 32) else c

/-- `String.prototype.toLowerCase`, restricted to the ASCII case rule
(code points 65–90 map up by 32, everything else is fixed). -/
def toLowerJ (c : Char) : Char :=
  if 65 ≤ c.toNat ∧ c.toNat ≤ 90 then Char.ofNat (c.toNat + 32) else c

/-- `replace(/[._-]/g, " ")` at the character level. -/
def sepToSpace (c : Char) : Char :=
  if c = '.' ∨ c = '-' ∨ c = '_' then ' ' else c

/-- Fueled worker for `splitWS`.  The fuel only bounds the recursion depth;
`splitWS` supplies `l.length`, which is always enough. -/
def splitWSF : Nat → List Char → List (List Char)
  | 0, l => [l.takeWhile notWS]
  | Nat.succ fuel, l =>
    if (l.dropWhile notWS).isEmpty then [l.takeWhile notWS]
    else l.takeWhile notWS :: splitWSF fuel ((l.dropWhile notWS).dropWhile isJsWS)

/-- JavaScript `str.split(/\s+/)`: the segments of `l` between maximal runs of
whitespace.  A leading (resp. trailing) run contributes a leading (resp.
trailing) empty segment, and `splitWS [] = [[]]`, exactly as in JavaScript. -/
def splitWS (l : List Char) : List (List Char) := splitWSF l.length l

/-- `String.prototype.trim`: drop JavaScript whitespace from both ends. -/
def trimJs (l : List Char) : List Char :=
  ((l.dropWhile isJsWS).reverse.dropWhile isJsWS).reverse

/-- Fueled worker for `wordsOf`. -/
def wordsOfF : Nat → List Char → List (List Char)
  | 0, _ => []
  | Nat.succ fuel, l =>
    if (l.dropWhile isJsWS).isEmpty then []
    else (l.dropWhile isJsWS).takeWhile notWS ::
      wordsOfF fuel ((l.dropWhile isJsWS).dropWhile notWS)

/-- Specification-side notion of "the whitespace-separated words of `l`": the
maximal non-empty runs of non-whitespace characters, in order.  This is defined
independently of `splitWS` and related to it by the lemmas below. -/
def wordsOf (l : List Char) : List (List Char) := wordsOfF l.length l

/-- `split(/\s+/)` followed by `.filter(word => word.length > 0)`, the idiom
used by the source for word lists. -/
def jsWords (l : List Char) : List (List Char) :=
  (splitWS l).filter (fun w => decide (0 < w.length))

/-- `word.charAt(0).toUpperCase() + word.slice(1).toLowerCase()`. -/
def titlecase : List Char → List Char
  | [] => []
  | c :: r => toUpperJ c :: r.map toLowerJ

/-- lib.ts `normalizeShowName`: trim, split on whitespace runs, title-case each
word, join with a literal dot. -/
def normalizeL (l : List Char) : List Char :=
  List.intercalate ['.'] ((splitWS (trimJs l)).map titlecase)

/-- lib.ts `normalizeShowName` on `String`. -/
def normalizeShowName (showName : String) : String :=
  String.mk (normalizeL showName.data)

/-- Greedy `\d{1,2}`: up to two leading ASCII digits, at least one; returns the
digits and the rest of the input. -/
def take12digits : List Char → Option (List Char × List Char)
  | [] => none
  | [c] => if c.isDigit then some ([c], []) else none
  | c1 :: c2 :: r =>
    if c1.isDigit then
      if c2.isDigit then some ([c1, c2], r) else some ([c1], c2 :: r)
    else none

/-- `[Ee]\d{1,2}` at the head of the input: the episode digits, if any. -/
def matchEe : List Char → Option (List Char)
  | [] => none
  | e :: r => if e = 'E' ∨ e = 'e' then (take12digits r).map Prod.fst else none

/-- `(\d{1,2})[Ee](\d{1,2})` at the head of the input (the part of
`SEASON_EPISODE_REGEX` after `[Ss]`), with the regex backtracking rule: the
season first tries two digits and falls back to one when no `[Ee]` follows. -/
def matchAfterS : List Char → Option (List Char × List Char)
  | [] => none
  | [_] => none
  | c1 :: c2 :: r =>
    if c1.isDigit then
      if c2.isDigit then
        match matchEe r with
        | some ep => some ([c1, c2], ep)
        | none =>
          match matchEe (c2 :: r) with
          | some ep => some ([c1], ep)
          | none => none
      else
        match matchEe (c2 :: r) with
        | some ep => some ([c1], ep)
        | none => none
    else none

/-- First match of `SEASON_EPISODE_REGEX = /[Ss](\d{1,2})[Ee](\d{1,2})/`:
returns `(text before the match, season digits, episode digits)` of the
leftmost match, scanning positions left to right. -/
def findSEsplit : List Char → Option (List Char × List Char × List Char)
  | [] => none
  | c :: rest =>
    match (if c = 'S' ∨ c = 's' then matchAfterS rest else none) with
    | some (se, ep) => some ([], se, ep)
    | none => (findSEsplit rest).map (fun t => (c :: t.1, t.2.1, t.2.2))

/-- `String.prototype.padStart(2, "0")`. -/
def pad2 (l : List Char) : List Char :=
  if l.length < 2 then List.replicate (2 - l.length) '0' ++ l else l

/-- The `{ season, episode }` record of lib.ts. -/
structure SeasonEpisode where
  season : String
  episode : String
deriving DecidableEq

/-- lib.ts `extractSeasonEpisode`: first `S##E##` marker, zero-padded. -/
def extractSeasonEpisode (filename : String) : Option SeasonEpisode :=
  match findSEsplit filename.data with
  | none => none
  | some (_, se, ep) => some ⟨String.mk (pad2 se), String.mk (pad2 ep)⟩

/-- lib.ts `showNameMatchesFilename`: every lower-cased word of the show name
occurs verbatim among the words of the separator-normalized, lower-cased
filename. -/
def showNameMatchesFilename (showName filename : String) : Bool :=
  (jsWords (showName.data.map toLowerJ)).all (fun sw =>
    (jsWords ((filename.data.map toLowerJ).map sepToSpace)).any (fun fw => fw == sw))

/-- The `RenameOperation` record of lib.ts (`skipped` is an optional boolean in
TypeScript; it is always set explicitly by the planner, so a plain `Bool`). -/
structure RenameOperation where
  oldPath : String
  newPath : String
  oldName : String
  newName : String
  skipped : Bool
  reason : Option String
deriving DecidableEq

/-- One step of the insertion-ordered `Map<string, number>` tally: increment
the entry for `k`, appending a fresh `(k, 1)` entry when absent. -/
def bumpCount : List (String × Nat) → String → List (String × Nat)
  | [], k => [(k, 1)]
  | (k0, n) :: rest, k =>
    if k0 = k then (k0, n + 1) :: rest else (k0, n) :: bumpCount rest k

/-- lib.ts `checkForConflicts`: tally every operation's `newName` and return,
in first-seen order, the names whose count exceeds one. -/
def checkForConflicts (operations : List RenameOperation) : List String :=
  ((operations.foldl (fun m op => bumpCount m op.newName) []).filter
    (fun p => decide (1 < p.2))).map Prod.fst

/-- `]` or `)` — the closing class of the metadata-stripping regex. -/
def isCloseBr (c : Char) : Bool := c = ']' || c = ')'

/-- JavaScript line terminators, which `.` does not match. -/
def isLineTerm (c : Char) : Bool :=
  c.toNat = 10 || c.toNat = 13 || c.toNat = 8232 || c.toNat = 8233

/-- The non-greedy `.*?[\]\)]` tail of the metadata regex: consume up to and
including the first closing bracket, failing at a line terminator or the end
of input. -/
def scanClose : List Char → Option (List Char)
  | [] => none
  | c :: rest =>
    if isCloseBr c then some rest
    else if isLineTerm c then none else scanClose rest

/-- Fueled worker for `stripBrackets`. -/
def stripBracketsF : Nat → List Char → List Char
  | 0, l => l
  | Nat.succ _, [] => []
  | Nat.succ fuel, c :: rest =>
    if c = '[' ∨ c = '(' then
      match scanClose rest with
      | some rest2 => stripBracketsF fuel rest2
      | none => c :: stripBracketsF fuel rest
    else c :: stripBracketsF fuel rest

/-- `replace(/[\[\(].*?[\]\)]/g, "")`: repeatedly delete the leftmost span
from an opening bracket to the nearest closing bracket. -/
def stripBrackets (l : List Char) : List Char := stripBracketsF l.length l

/-- lib.ts `extractShowNameFromFilename`: text before the first `S##E##`
marker, metadata spans stripped, separators spaced, title-cased words joined
with single spaces; `none` when there is no marker or no word remains. -/
def extractShowNameFromFilename (filename : String) : Option String :=
  match findSEsplit filename.data with
  | none => none
  | some (beforePattern, _, _) =>
    let withSpaces := (stripBrackets beforePattern).map sepToSpace
    let ws := jsWords (trimJs withSpaces)
    if ws.isEmpty then none
    else some (String.mk (List.intercalate [' '] (ws.map titlecase)))

/-- The three confidence tiers of lib.ts. -/
inductive Confidence
  | high
  | medium
  | low
deriving DecidableEq

/-- The `InferenceResult` record of lib.ts (`conflictingNames` optional). -/
structure InferenceResult where
  showName : Option String
  confidence : Confidence
  conflictingNames : Option (List String)
deriving DecidableEq

/-- The candidate names extracted from a file list, nulls discarded. -/
def extractedNames (filenames : List String) : List String :=
  filenames.filterMap extractShowNameFromFilename

/-- The insertion-ordered occurrence tally of lib.ts (`Map<string, number>`). -/
def tally (l : List String) : List (String × Nat) := l.foldl bumpCount []

/-- The `count > maxCount` scan of `inferShowName`: the first name to reach the
maximal count, starting from `(null, 0)`. -/
def pickMost (counts : List (String × Nat)) : Option String × Nat :=
  counts.foldl (fun acc p => if acc.2 < p.2 then (some p.1, p.2) else acc) (none, 0)

/-- lib.ts `inferShowName`.  JavaScript computes
`matchPercentage = maxCount / totalExtracted * 100` in floating point and
compares it with `=== 100` and `>= 80`; for every representable list length
these comparisons coincide with the exact rational ones (the quotient of
equal numbers is exactly `1`, and otherwise the relative rounding error,
below `2^-51`, is smaller than the distance from `100 m / t` to the
thresholds for any `t` below `2^45`), which are embedded here by
cross-multiplication. -/
def inferShowName (filenames : List String) : InferenceResult :=
  if filenames.isEmpty then ⟨none, Confidence.low, none⟩
  else if (extractedNames filenames).isEmpty then ⟨none, Confidence.low, none⟩
  else
    let nameCounts := tally (extractedNames filenames)
    let most := pickMost nameCounts
    let totalExtracted := (extractedNames filenames).length
    let conflictingNames :=
      (nameCounts.map Prod.fst).filter (fun n => decide (some n ≠ most.1))
    if most.2 * 100 = totalExtracted * 100 then ⟨most.1, Confidence.high, none⟩
    else if 80 * totalExtracted ≤ most.2 * 100 then
      ⟨most.1, Confidence.medium,
        if conflictingNames.isEmpty then none else some conflictingNames⟩
    else
      ⟨most.1, Confidence.low,
        if conflictingNames.isEmpty then none else some conflictingNames⟩

/-- `path.join` for a normalized directory and a plain file name. -/
def pathJoin (dir name : String) : String := dir ++ "/" ++ name

/-- The suffix of `l` starting at its last `.`, if `l` contains one. -/
def afterLastDot? : List Char → Option (List Char)
  | [] => none
  | c :: rest =>
    match afterLastDot? rest with
    | some r => some r
    | none => if c = '.' then some (c :: rest) else none

/-- Node's `path.extname` on a basename (no path separators): the substring
from the last dot, except that a dot in first position (a hidden file, so the
suffix would be the whole name) and the special name `..` give `""`. -/
def extname (filename : String) : String :=
  if filename.data = ['.', '.'] then ""
  else
    match afterLastDot? filename.data with
    | none => ""
    | some r => if r.length = filename.data.length then "" else String.mk r

/-- index.ts: the body of the `operations` map for one directory entry. -/
def planOperation (resolvedFolderPath showName normalizedShowName fileName : String) :
    RenameOperation :=
  match extractSeasonEpisode fileName with
  | none =>
    ⟨pathJoin resolvedFolderPath fileName, "", fileName, "", true,
      some "No S##E## pattern found"⟩
  | some seasonEpisode =>
    if showNameMatchesFilename showName fileName then
      ⟨pathJoin resolvedFolderPath fileName,
        pathJoin resolvedFolderPath
          (normalizedShowName ++ ".S" ++ seasonEpisode.season ++ "E" ++
            seasonEpisode.episode ++ extname fileName),
        fileName,
        normalizedShowName ++ ".S" ++ seasonEpisode.season ++ "E" ++
          seasonEpisode.episode ++ extname fileName,
        false, none⟩
    else
      ⟨pathJoin resolvedFolderPath fileName, "", fileName, "", true,
        some "Show name not found in filename"⟩

/-- index.ts: the full `operations` array over the video files. -/
def operations (resolvedFolderPath showName : String) (videoFiles : List String) :
    List RenameOperation :=
  videoFiles.map (fun file =>
    planOperation resolvedFolderPath showName (normalizeShowName showName) file)

/-- `str.replace(".", " ")` with a plain-string pattern: JavaScript replaces
only the first occurrence. -/
def replaceFirstDotL : List Char → List Char
  | [] => []
  | c :: r => if c = '.' then ' ' :: r else c :: replaceFirstDotL r

/-- `str.replace(".", " ")` on `String` (first occurrence only). -/
def strReplaceFirstDot (s : String) : String := String.mk (replaceFirstDotL s.data)

/-- `str.replaceAll(".", " ")` on `String` (every occurrence). -/
def strReplaceAllDot (s : String) : String :=
  String.mk (s.data.map (fun c => if c = '.' then ' ' else c))

/-! ## Specification-side definitions used by the claim statements -/

/-- Lookup in an insertion-ordered tally, defaulting to zero. -/
def tallyGet : List (String × Nat) → String → Nat
  | [], _ => 0
  | (k0, n) :: rest, k => if k0 = k then n else tallyGet rest k

/-- A run of one or two ASCII digits (the `\d{1,2}` capture groups). -/
def DigitStr (s : List Char) : Prop :=
  1 ≤ s.length ∧ s.length ≤ 2 ∧ ∀ c ∈ s, c.isDigit = true

/-- Declarative reading of the season/episode marker: at offset `i` the string
contains `[Ss]`, then the season digits `s`, then `[Ee]`, then the episode
digits `e`. -/
def MarkerParseAt (l : List Char) (i : Nat) (s e : List Char) : Prop :=
  ∃ pre S E post, l = pre ++ S :: (s ++ E :: (e ++ post)) ∧ pre.length = i ∧
    (S = 'S' ∨ S = 's') ∧ (E = 'E' ∨ E = 'e') ∧ DigitStr s ∧ DigitStr e

/-- Some season/episode marker is parseable at offset `i`. -/
def MarkerAt (l : List Char) (i : Nat) : Prop := ∃ s e, MarkerParseAt l i s e

/-- The part of the marker after the `[Ss]` delimiter: season digits, `[Ee]`,
episode digits, anything after. -/
def ParseAfterS (l : List Char) (s e : List Char) : Prop :=
  ∃ E post, l = s ++ E :: (e ++ post) ∧ (E = 'E' ∨ E = 'e') ∧ DigitStr s ∧ DigitStr e

/-- What the spec requires of `conflictingNames` when the winning name is `w`:
absent when every extracted name is the winner, otherwise present, non-empty,
duplicate-free, and containing exactly the extracted names other than `w`. -/
def ConflictSpec (filenames : List String) (w : String) : Prop :=
  ((∀ n ∈ extractedNames filenames, n = w) →
    (inferShowName filenames).conflictingNames = none) ∧
  ((∃ n ∈ extractedNames filenames, n ≠ w) →
    ∃ cn, (inferShowName filenames).conflictingNames = some cn ∧ cn ≠ [] ∧ cn.Nodup ∧
      ∀ n, (n ∈ cn ↔ n ∈ extractedNames filenames ∧ n ≠ w))

/-! ## Character-level lemmas -/

theorem charToNatOfNatValid (n : Nat) (h : n.isValidChar) : (Char.ofNat n).toNat = n := by
  simp only [Char.ofNat, dif_pos h, Char.ofNatAux, Char.toNat]
  rfl

theorem toUpperJ_toNat (c : Char) :
    (toUpperJ c).toNat = if 97 ≤ c.toNat ∧ c.toNat ≤ 122 then c.toNat - 32 else c.toNat := by
  unfold toUpperJ
  split
  · next h => exact charToNatOfNatValid _ (Or.inl (by omega))
  · rfl

theorem toLowerJ_toNat (c : Char) :
    (toLowerJ c).toNat = if 65 ≤ c.toNat ∧ c.toNat ≤ 90 then c.toNat + 32 else c.toNat := by
  unfold toLowerJ
  split
  · next h => exact charToNatOfNatValid _ (Or.inl (by omega))
  · rfl

theorem isJsWS_iff (c : Char) : isJsWS c = true ↔ c.toNat ∈ wsCodes := by
  simp [isJsWS]

theorem wsCodes_range {n : Nat} (h : n ∈ wsCodes) :
    (n < 65 ∨ (90 < n ∧ n < 97) ∨ 122 < n) ∧ n ≠ 46 := by
  simp only [wsCodes, List.mem_cons, List.not_mem_nil, or_false] at h
  omega

theorem isJsWS_of_toNat {c d : Char} (h : c.toNat = d.toNat) : isJsWS c = isJsWS d := by
  simp [isJsWS, h]

theorem isJsWS_toUpperJ (c : Char) : isJsWS (toUpperJ c) = isJsWS c := by
  by_cases h : 97 ≤ c.toNat ∧ c.toNat ≤ 122
  · have h1 : (toUpperJ c).toNat = c.toNat - 32 := by rw [toUpperJ_toNat, if_pos h]
    have w1 : isJsWS (toUpperJ c) = false := by
      simp only [isJsWS, decide_eq_false_iff_not]
      intro hm
      exact absurd ((wsCodes_range hm).1) (by omega)
    have w2 : isJsWS c = false := by
      simp only [isJsWS, decide_eq_false_iff_not]
      intro hm
      exact absurd ((wsCodes_range hm).1) (by omega)
    rw [w1, w2]
  · rw [isJsWS_of_toNat (d := c) (by rw [toUpperJ_toNat, if_neg h])]

theorem isJsWS_toLowerJ (c : Char) : isJsWS (toLowerJ c) = isJsWS c := by
  by_cases h : 65 ≤ c.toNat ∧ c.toNat ≤ 90
  · have h1 : (toLowerJ c).toNat = c.toNat + 32 := by rw [toLowerJ_toNat, if_pos h]
    have w1 : isJsWS (toLowerJ c) = false := by
      simp only [isJsWS, decide_eq_false_iff_not]
      intro hm
      exact absurd ((wsCodes_range hm).1) (by omega)
    have w2 : isJsWS c = false := by
      simp only [isJsWS, decide_eq_false_iff_not]
      intro hm
      exact absurd ((wsCodes_range hm).1) (by omega)
    rw [w1, w2]
  · rw [isJsWS_of_toNat (d := c) (by rw [toLowerJ_toNat, if_neg h])]

theorem toLowerJ_of_ws {c : Char} (h : isJsWS c = true) : toLowerJ c = c := by
  have hm := (isJsWS_iff c).mp h
  have := wsCodes_range hm
  unfold toLowerJ
  rw [if_neg (by omega)]

theorem charEqOfToNat {c d : Char} (h : c.toNat = d.toNat) : c = d := by
  have hv : c.val = d.val := UInt32.toNat.inj h
  exact Char.eq_of_val_eq hv

theorem toUpperJ_toUpperJ (c : Char) : toUpperJ (toUpperJ c) = toUpperJ c := by
  apply charEqOfToNat
  rw [toUpperJ_toNat (toUpperJ c), toUpperJ_toNat c]
  split_ifs <;> omega

theorem toLowerJ_toLowerJ (c : Char) : toLowerJ (toLowerJ c) = toLowerJ c := by
  apply charEqOfToNat
  rw [toLowerJ_toNat (toLowerJ c), toLowerJ_toNat c]
  split_ifs <;> omega

theorem dot_toNat : ('.').toNat = 46 := by decide

theorem toUpperJ_ne_dot {c : Char} (h : c ≠ '.') : toUpperJ c ≠ '.' := by
  intro he
  by_cases hr : 97 ≤ c.toNat ∧ c.toNat ≤ 122
  · have h1 : (toUpperJ c).toNat = c.toNat - 32 := by rw [toUpperJ_toNat, if_pos hr]
    rw [he, dot_toNat] at h1
    omega
  · have h1 : toUpperJ c = c := by unfold toUpperJ; rw [if_neg hr]
    exact h (h1 ▸ he)

theorem toLowerJ_ne_dot {c : Char} (h : c ≠ '.') : toLowerJ c ≠ '.' := by
  intro he
  by_cases hr : 65 ≤ c.toNat ∧ c.toNat ≤ 90
  · have h1 : (toLowerJ c).toNat = c.toNat + 32 := by rw [toLowerJ_toNat, if_pos hr]
    rw [he, dot_toNat] at h1
    omega
  · have h1 : toLowerJ c = c := by unfold toLowerJ; rw [if_neg hr]
    exact h (h1 ▸ he)

/-! ## takeWhile / dropWhile toolkit -/

theorem lengthDropWhileLe (p : Char → Bool) (l : List Char) :
    (l.dropWhile p).length ≤ l.length := by
  induction l with
  | nil => simp
  | cons a l ih =>
    rw [List.dropWhile_cons]
    split
    · exact Nat.le_succ_of_le ih
    · simp

theorem dropWhileHeadFalse {p : Char → Bool} {l : List Char} {c : Char} {r : List Char}
    (h : l.dropWhile p = c :: r) : p c = false := by
  induction l with
  | nil => simp at h
  | cons a l ih =>
    rw [List.dropWhile_cons] at h
    by_cases hp : p a = true
    · rw [if_pos hp] at h
      exact ih h
    · rw [if_neg hp] at h
      injection h with h1 _
      subst h1
      simpa using hp

theorem dropWhileIdem (p : Char → Bool) (l : List Char) :
    (l.dropWhile p).dropWhile p = l.dropWhile p := by
  cases hd : l.dropWhile p with
  | nil => simp
  | cons c r =>
    have hc := dropWhileHeadFalse hd
    rw [List.dropWhile_cons, if_neg (by simp [hc])]

theorem dropWhileEqSelf {p : Char → Bool} {l : List Char}
    (h : ∀ c ∈ l, p c = false) : l.dropWhile p = l := by
  cases l with
  | nil => simp
  | cons a t =>
    rw [List.dropWhile_cons, if_neg (by simp [h a (by simp)])]

theorem dropdropLtSplit {l : List Char} (h : (l.dropWhile notWS).isEmpty = false) :
    ((l.dropWhile notWS).dropWhile isJsWS).length < l.length := by
  cases hd : l.dropWhile notWS with
  | nil => rw [hd] at h; simp at h
  | cons c r =>
    have hc : notWS c = false := dropWhileHeadFalse hd
    have hcw : isJsWS c = true := by
      unfold notWS at hc
      simpa using hc
    have hlen : (c :: r).length ≤ l.length := hd ▸ lengthDropWhileLe _ _
    rw [List.dropWhile_cons, if_pos hcw]
    calc (r.dropWhile isJsWS).length ≤ r.length := lengthDropWhileLe _ _
      _ < (c :: r).length := by simp
      _ ≤ l.length := hlen

theorem dropdropLtWords {l : List Char} (h : (l.dropWhile isJsWS).isEmpty = false) :
    ((l.dropWhile isJsWS).dropWhile notWS).length < l.length := by
  cases hd : l.dropWhile isJsWS with
  | nil => rw [hd] at h; simp at h
  | cons c r =>
    have hc : isJsWS c = false := dropWhileHeadFalse hd
    have hcw : notWS c = true := by
      unfold notWS
      simp [hc]
    have hlen : (c :: r).length ≤ l.length := hd ▸ lengthDropWhileLe _ _
    rw [List.dropWhile_cons, if_pos hcw]
    calc (r.dropWhile notWS).length ≤ r.length := lengthDropWhileLe _ _
      _ < (c :: r).length := by simp
      _ ≤ l.length := hlen

/-! ## Recursion equations for the fueled workers -/

theorem splitWSF_congr :
    ∀ f1 f2 (l : List Char), l.length ≤ f1 → l.length ≤ f2 → splitWSF f1 l = splitWSF f2 l := by
  intro f1
  induction f1 with
  | zero =>
    intro f2 l h1 _
    have hl : l = [] := List.eq_nil_of_length_eq_zero (Nat.le_zero.mp h1)
    subst hl
    cases f2 <;> simp [splitWSF]
  | succ f1 ih =>
    intro f2 l h1 h2
    cases f2 with
    | zero =>
      have hl : l = [] := List.eq_nil_of_length_eq_zero (Nat.le_zero.mp h2)
      subst hl
      simp [splitWSF]
    | succ f2 =>
      simp only [splitWSF]
      cases he : (l.dropWhile notWS).isEmpty with
      | true => simp [he]
      | false =>
        rw [if_neg (by simp [he]), if_neg (by simp [he])]
        have hr := dropdropLtSplit he
        rw [ih f2 _ (by omega) (by omega)]

theorem splitWS_eq (l : List Char) :
    splitWS l = if (l.dropWhile notWS).isEmpty then [l.takeWhile notWS]
      else l.takeWhile notWS :: splitWS ((l.dropWhile notWS).dropWhile isJsWS) := by
  unfold splitWS
  cases hl : l.length with
  | zero =>
    have hn : l = [] := List.eq_nil_of_length_eq_zero hl
    subst hn
    simp [splitWSF]
  | succ n =>
    simp only [splitWSF]
    cases he : (l.dropWhile notWS).isEmpty with
    | true => simp [he]
    | false =>
      rw [if_neg (by simp [he]), if_neg (by simp [he])]
      have hr := dropdropLtSplit he
      rw [splitWSF_congr n _ _ (by omega) (le_refl _)]

theorem wordsOfF_congr :
    ∀ f1 f2 (l : List Char), l.length ≤ f1 → l.length ≤ f2 → wordsOfF f1 l = wordsOfF f2 l := by
  intro f1
  induction f1 with
  | zero =>
    intro f2 l h1 _
    have hl : l = [] := List.eq_nil_of_length_eq_zero (Nat.le_zero.mp h1)
    subst hl
    cases f2 <;> simp [wordsOfF]
  | succ f1 ih =>
    intro f2 l h1 h2
    cases f2 with
    | zero =>
      have hl : l = [] := List.eq_nil_of_length_eq_zero (Nat.le_zero.mp h2)
      subst hl
      simp [wordsOfF]
    | succ f2 =>
      simp only [wordsOfF]
      cases he : (l.dropWhile isJsWS).isEmpty with
      | true => simp [he]
      | false =>
        rw [if_neg (by simp [he]), if_neg (by simp [he])]
        have hr := dropdropLtWords he
        rw [ih f2 _ (by omega) (by omega)]

theorem wordsOf_eq (l : List Char) :
    wordsOf l = if (l.dropWhile isJsWS).isEmpty then []
      else (l.dropWhile isJsWS).takeWhile notWS ::
        wordsOf ((l.dropWhile isJsWS).dropWhile notWS) := by
  unfold wordsOf
  cases hl : l.length with
  | zero =>
    have hn : l = [] := List.eq_nil_of_length_eq_zero hl
    subst hn
    simp [wordsOfF]
  | succ n =>
    simp only [wordsOfF]
    cases he : (l.dropWhile isJsWS).isEmpty with
    | true => simp [he]
    | false =>
      rw [if_neg (by simp [he]), if_neg (by simp [he])]
      have hr := dropdropLtWords he
      rw [wordsOfF_congr n _ _ (by omega) (le_refl _)]

/-! ## The word decomposition and its relation to `splitWS` -/

theorem wordsOf_congr {a b : List Char} (h : a.dropWhile isJsWS = b.dropWhile isJsWS) :
    wordsOf a = wordsOf b := by
  rw [wordsOf_eq a, wordsOf_eq b, h]

theorem wordsOf_dropWS (l : List Char) : wordsOf (l.dropWhile isJsWS) = wordsOf l :=
  wordsOf_congr (dropWhileIdem _ _)

theorem boolNotTrue {b : Bool} (h : ¬ b = true) : b = false := by
  cases b
  · rfl
  · exact absurd rfl h

theorem wordsOf_eq_nil_iff (l : List Char) :
    wordsOf l = [] ↔ ∀ c ∈ l, isJsWS c = true := by
  rw [wordsOf_eq]
  by_cases he : (l.dropWhile isJsWS).isEmpty = true
  · rw [if_pos he]
    constructor
    · intro _
      exact List.dropWhile_eq_nil_iff.mp (List.isEmpty_iff.mp he)
    · intro _
      rfl
  · rw [if_neg he]
    constructor
    · intro h
      exact absurd h (by simp)
    · intro hall
      exact absurd (List.isEmpty_iff.mpr (List.dropWhile_eq_nil_iff.mpr hall)) he

theorem wordsOf_all_notWS {l : List Char} (hall : ∀ c ∈ l, notWS c = true) (hne : l ≠ []) :
    wordsOf l = [l] := by
  have hdw : l.dropWhile isJsWS = l := dropWhileEqSelf (fun c hc => by
    have hw := hall c hc
    unfold notWS at hw
    simpa using hw)
  have hnil : l.dropWhile notWS = [] := List.dropWhile_eq_nil_iff.mpr hall
  rw [wordsOf_eq, hdw, if_neg (by simp [List.isEmpty_iff, hne]),
    List.takeWhile_eq_self_iff.mpr hall, hnil]
  rfl

theorem jsWords_eq_wordsOf_aux :
    ∀ (n : Nat) (l : List Char), l.length ≤ n → jsWords l = wordsOf l := by
  intro n
  induction n with
  | zero =>
    intro l h
    have hn : l = [] := List.eq_nil_of_length_eq_zero (Nat.le_zero.mp h)
    subst hn
    rfl
  | succ n ih =>
    intro l hl
    rw [jsWords, splitWS_eq]
    cases he : (l.dropWhile notWS).isEmpty with
    | true =>
      rw [if_pos rfl]
      have hnil : l.dropWhile notWS = [] := List.isEmpty_iff.mp he
      have hall : ∀ c ∈ l, notWS c = true := List.dropWhile_eq_nil_iff.mp hnil
      rw [List.takeWhile_eq_self_iff.mpr hall]
      cases l with
      | nil => rfl
      | cons a t =>
        rw [wordsOf_all_notWS hall (by simp)]
        simp [List.filter_cons]
    | false =>
      rw [if_neg (by simp)]
      rw [List.filter_cons]
      have hr : ((l.dropWhile notWS).dropWhile isJsWS).length < l.length := dropdropLtSplit he
      have ihr := ih ((l.dropWhile notWS).dropWhile isJsWS) (by omega)
      rw [jsWords] at ihr
      by_cases hseg : l.takeWhile notWS = []
      · rw [hseg, if_neg (by simp), ihr]
        have hdw : l.dropWhile notWS = l := by
          have happ := List.takeWhile_append_dropWhile (p := notWS) (l := l)
          rw [hseg] at happ
          simpa using happ
        rw [hdw]
        exact wordsOf_dropWS l
      · rw [if_pos (by simp [List.length_pos, hseg]), ihr]
        obtain ⟨c, t, rfl⟩ : ∃ c t, l = c :: t := by
          cases l with
          | nil => exact absurd rfl hseg
          | cons c t => exact ⟨c, t, rfl⟩
        have hc : notWS c = true := by
          by_contra hcc
          rw [List.takeWhile_cons, if_neg hcc] at hseg
          exact hseg rfl
        have h1 : (c :: t).dropWhile isJsWS = c :: t := by
          rw [List.dropWhile_cons, if_neg (by
            unfold notWS at hc
            simp only [Bool.not_eq_true'] at hc
            simp [hc])]
        rw [wordsOf_eq (c :: t), h1, if_neg (by simp)]
        have h2 : wordsOf (((c :: t).dropWhile notWS).dropWhile isJsWS) =
            wordsOf ((c :: t).dropWhile notWS) := wordsOf_dropWS _
        rw [h2]

theorem jsWords_eq_wordsOf (l : List Char) : jsWords l = wordsOf l :=
  jsWords_eq_wordsOf_aux l.length l (le_refl _)

theorem wordsOf_props :
    ∀ (n : Nat) (l : List Char), l.length ≤ n →
      ∀ w ∈ wordsOf l, w ≠ [] ∧ (∀ c ∈ w, notWS c = true) ∧ (∀ c ∈ w, c ∈ l) := by
  intro n
  induction n with
  | zero =>
    intro l h w hw
    have hn : l = [] := List.eq_nil_of_length_eq_zero (Nat.le_zero.mp h)
    subst hn
    simp [wordsOf, wordsOfF] at hw
  | succ n ih =>
    intro l hl w hw
    rw [wordsOf_eq] at hw
    by_cases he : (l.dropWhile isJsWS).isEmpty = true
    · rw [if_pos he] at hw
      simp at hw
    · rw [if_neg he] at hw
      have hsub : ∀ c, c ∈ l.dropWhile isJsWS → c ∈ l :=
        fun c hc => (List.dropWhile_sublist isJsWS).subset hc
      rcases List.mem_cons.mp hw with hw1 | hw2
      · subst hw1
        refine ⟨?_, fun c hc => List.mem_takeWhile_imp hc,
          fun c hc => hsub c ((List.takeWhile_sublist notWS).subset hc)⟩
        cases hd : l.dropWhile isJsWS with
        | nil => rw [hd] at he; simp at he
        | cons c r =>
          have hcf : isJsWS c = false := dropWhileHeadFalse hd
          rw [List.takeWhile_cons, if_pos (by unfold notWS; simp [hcf])]
          simp
      · have hlt : ((l.dropWhile isJsWS).dropWhile notWS).length < l.length :=
          dropdropLtWords (boolNotTrue he)
        obtain ⟨hne, hnws, hmem⟩ := ih _ (by omega) w hw2
        exact ⟨hne, hnws, fun c hc =>
          hsub c ((List.dropWhile_sublist notWS).subset (hmem c hc))⟩

theorem mem_wordsOf_ne_nil {l : List Char} {w : List Char} (h : w ∈ wordsOf l) : w ≠ [] :=
  (wordsOf_props l.length l (le_refl _) w h).1

theorem mem_wordsOf_notWS {l : List Char} {w : List Char} (h : w ∈ wordsOf l) :
    ∀ c ∈ w, notWS c = true :=
  (wordsOf_props l.length l (le_refl _) w h).2.1

theorem mem_wordsOf_subset {l : List Char} {w : List Char} (h : w ∈ wordsOf l) :
    ∀ c ∈ w, c ∈ l :=
  (wordsOf_props l.length l (le_refl _) w h).2.2

/-! ## Trimming and the words of a trimmed string -/

theorem memOfGetLast {l : List Char} {a : Char} (h : l.getLast? = some a) : a ∈ l := by
  have hne : l ≠ [] := by
    intro hl
    subst hl
    simp at h
  rw [List.getLast?_eq_getLast l hne] at h
  injection h with h1
  subst h1
  exact List.getLast_mem hne

theorem trimRDecomp (a : List Char) :
    a = (a.reverse.dropWhile isJsWS).reverse ++ (a.reverse.takeWhile isJsWS).reverse ∧
      ∀ c ∈ (a.reverse.takeWhile isJsWS).reverse, isJsWS c = true := by
  constructor
  · have happ := List.takeWhile_append_dropWhile (p := isJsWS) (l := a.reverse)
    have := congrArg List.reverse happ
    rw [List.reverse_append, List.reverse_reverse] at this
    exact this.symm
  · intro c hc
    exact List.mem_takeWhile_imp (List.mem_reverse.mp hc)

theorem wordsOfAppendWS :
    ∀ (n : Nat) (x t : List Char), x.length ≤ n → (∀ c ∈ t, isJsWS c = true) →
      wordsOf (x ++ t) = wordsOf x := by
  intro n
  induction n with
  | zero =>
    intro x t hx ht
    have hn : x = [] := List.eq_nil_of_length_eq_zero (Nat.le_zero.mp hx)
    subst hn
    rw [List.nil_append]
    rw [(wordsOf_eq_nil_iff t).mpr ht, (wordsOf_eq_nil_iff []).mpr (by simp)]
  | succ n ih =>
    intro x t hx ht
    by_cases hxw : ∀ c ∈ x, isJsWS c = true
    · rw [(wordsOf_eq_nil_iff x).mpr hxw]
      apply (wordsOf_eq_nil_iff _).mpr
      intro c hc
      rcases List.mem_append.mp hc with h | h
      · exact hxw c h
      · exact ht c h
    · -- x has a non-whitespace character
      have hx1 : x.dropWhile isJsWS ≠ [] := by
        intro hnil
        exact hxw (List.dropWhile_eq_nil_iff.mp hnil)
      have hdwa : (x ++ t).dropWhile isJsWS = x.dropWhile isJsWS ++ t := by
        clear hx ih hxw
        induction x with
        | nil => exact absurd rfl hx1
        | cons a x ihx =>
          rw [List.cons_append, List.dropWhile_cons, List.dropWhile_cons]
          by_cases ha : isJsWS a = true
          · rw [if_pos ha, if_pos ha]
            rw [List.dropWhile_cons, if_pos ha] at hx1
            exact ihx hx1
          · rw [if_neg ha, if_neg ha, List.cons_append]
      have hgoal1 : wordsOf (x ++ t) = wordsOf (x.dropWhile isJsWS ++ t) := by
        apply wordsOf_congr
        rw [hdwa]
        cases hx2 : x.dropWhile isJsWS with
        | nil => exact absurd hx2 hx1
        | cons c x1 =>
          have hc : isJsWS c = false := dropWhileHeadFalse hx2
          rw [List.cons_append, List.dropWhile_cons, if_neg (by simp [hc])]
      rw [hgoal1, ← wordsOf_dropWS x]
      -- both sides now start from x1 := x.dropWhile isJsWS, whose head is not WS
      cases hx2 : x.dropWhile isJsWS with
      | nil => exact absurd hx2 hx1
      | cons c x1 =>
        have hc : isJsWS c = false := dropWhileHeadFalse hx2
        have hlen1 : (c :: x1).length ≤ x.length := hx2 ▸ lengthDropWhileLe _ _
        -- words of (c :: x1) ++ t versus words of (c :: x1)
        have hw1 : ((c :: x1) ++ t).dropWhile isJsWS = (c :: x1) ++ t := by
          rw [List.cons_append, List.dropWhile_cons, if_neg (by simp [hc])]
        have hw2 : (c :: x1).dropWhile isJsWS = c :: x1 := by
          rw [List.dropWhile_cons, if_neg (by simp [hc])]
        rw [wordsOf_eq ((c :: x1) ++ t), hw1, wordsOf_eq (c :: x1), hw2,
          if_neg (by simp), if_neg (by simp)]
        by_cases hrest : (c :: x1).dropWhile notWS = []
        · -- the word swallows all of c :: x1
          have hallw : ∀ d ∈ (c :: x1), notWS d = true := List.dropWhile_eq_nil_iff.mp hrest
          have htw : ((c :: x1) ++ t).takeWhile notWS = (c :: x1) ++ t.takeWhile notWS :=
            List.takeWhile_append_of_pos hallw
          have htw2 : t.takeWhile notWS = [] := by
            cases t with
            | nil => rfl
            | cons b t2 =>
              rw [List.takeWhile_cons, if_neg (by
                have hb := ht b (by simp)
                unfold notWS
                simp [hb])]
          have hdw : ((c :: x1) ++ t).dropWhile notWS = t := by
            rw [List.dropWhile_append_of_pos hallw]
            cases t with
            | nil => rfl
            | cons b t2 =>
              rw [List.dropWhile_cons, if_neg (by
                have hb := ht b (by simp)
                unfold notWS
                simp [hb])]
          rw [htw, htw2, List.append_nil, List.takeWhile_eq_self_iff.mpr hallw, hdw, hrest]
          rw [(wordsOf_eq_nil_iff t).mpr ht, (wordsOf_eq_nil_iff []).mpr (by simp)]
        · -- the word stops inside c :: x1
          have hsplit := List.takeWhile_append_dropWhile (p := notWS) (l := c :: x1)
          have hallw : ∀ d ∈ (c :: x1).takeWhile notWS, notWS d = true :=
            fun d hd => List.mem_takeWhile_imp hd
          cases hrc : (c :: x1).dropWhile notWS with
          | nil => exact absurd hrc hrest
          | cons b rest2 =>
            have hb : notWS b = false := dropWhileHeadFalse hrc
            have h4 : List.takeWhile notWS ((b :: rest2) ++ t) = [] := by
              rw [List.cons_append, List.takeWhile_cons, if_neg (by simp [hb])]
            have h5 : List.dropWhile notWS ((b :: rest2) ++ t) = (b :: rest2) ++ t := by
              rw [List.cons_append, List.dropWhile_cons, if_neg (by simp [hb])]
            have htw : ((c :: x1) ++ t).takeWhile notWS = (c :: x1).takeWhile notWS := by
              conv_lhs => rw [← hsplit, hrc, List.append_assoc]
              rw [List.takeWhile_append_of_pos hallw, h4, List.append_nil]
            have hdw : ((c :: x1) ++ t).dropWhile notWS = (b :: rest2) ++ t := by
              conv_lhs => rw [← hsplit, hrc, List.append_assoc]
              rw [List.dropWhile_append_of_pos hallw, h5]
            rw [htw, hdw]
            have hlt : (b :: rest2).length ≤ n := by
              have hc2 : notWS c = true := by unfold notWS; simp [hc]
              have htkc : List.takeWhile notWS (c :: x1) = c :: List.takeWhile notWS x1 := by
                rw [List.takeWhile_cons, if_pos hc2]
              have hlenadd := congrArg List.length hsplit
              rw [hrc, htkc] at hlenadd
              simp only [List.length_append, List.length_cons] at hlenadd
              have hx3 : (c :: x1).length ≤ x.length := hlen1
              simp only [List.length_cons] at hx3
              simp only [List.length_cons]
              omega
            have hih := ih (b :: rest2) t hlt ht
            rw [hih]

theorem wordsOf_trimJs (l : List Char) : wordsOf (trimJs l) = wordsOf l := by
  unfold trimJs
  obtain ⟨hdec, hws⟩ := trimRDecomp (l.dropWhile isJsWS)
  calc wordsOf ((l.dropWhile isJsWS).reverse.dropWhile isJsWS).reverse
      = wordsOf (((l.dropWhile isJsWS).reverse.dropWhile isJsWS).reverse ++
          ((l.dropWhile isJsWS).reverse.takeWhile isJsWS).reverse) :=
        (wordsOfAppendWS _ _ _ (le_refl _) hws).symm
    _ = wordsOf (l.dropWhile isJsWS) := by rw [← hdec]
    _ = wordsOf l := wordsOf_dropWS l

/-! ## `splitWS` on a trimmed string gives exactly its words -/

theorem trimJs_head {l : List Char} {c : Char} {r : List Char}
    (h : trimJs l = c :: r) : isJsWS c = false := by
  unfold trimJs at h
  obtain ⟨hdec, _⟩ := trimRDecomp (l.dropWhile isJsWS)
  rw [h, List.cons_append] at hdec
  exact dropWhileHeadFalse hdec

theorem trimJs_getLast {l : List Char} {c : Char} (h : (trimJs l).getLast? = some c) :
    isJsWS c = false := by
  unfold trimJs at h
  rw [List.getLast?_reverse] at h
  cases hd : (l.dropWhile isJsWS).reverse.dropWhile isJsWS with
  | nil => rw [hd] at h; simp at h
  | cons d r =>
    rw [hd] at h
    simp only [List.head?_cons] at h
    injection h with h1
    exact h1 ▸ dropWhileHeadFalse hd

theorem splitWS_trimmed :
    ∀ (n : Nat) (m : List Char), m.length ≤ n → m ≠ [] →
      (∀ c r, m = c :: r → isJsWS c = false) →
      (∀ c, m.getLast? = some c → isJsWS c = false) →
      splitWS m = wordsOf m := by
  intro n
  induction n with
  | zero =>
    intro m h hne _ _
    exact absurd (List.eq_nil_of_length_eq_zero (Nat.le_zero.mp h)) hne
  | succ n ih =>
    intro m hm hne hhead hlast
    obtain ⟨c, t, rfl⟩ : ∃ c t, m = c :: t := by
      cases m with
      | nil => exact absurd rfl hne
      | cons c t => exact ⟨c, t, rfl⟩
    have hc : isJsWS c = false := hhead c t rfl
    have hcw : notWS c = true := by unfold notWS; simp [hc]
    have hseg : (c :: t).takeWhile notWS = c :: t.takeWhile notWS := by
      rw [List.takeWhile_cons, if_pos hcw]
    have hw0 : (c :: t).dropWhile isJsWS = c :: t := by
      rw [List.dropWhile_cons, if_neg (by simp [hc])]
    rw [splitWS_eq]
    by_cases hre : (c :: t).dropWhile notWS = []
    · rw [if_pos (List.isEmpty_iff.mpr hre)]
      have hall : ∀ d ∈ (c :: t), notWS d = true := List.dropWhile_eq_nil_iff.mp hre
      rw [List.takeWhile_eq_self_iff.mpr hall, wordsOf_all_notWS hall (by simp)]
    · rw [if_neg (by simp [List.isEmpty_iff, hre])]
      have hsplit := List.takeWhile_append_dropWhile (p := notWS) (l := c :: t)
      cases hrc : (c :: t).dropWhile notWS with
      | nil => exact absurd hrc hre
      | cons b rest =>
        have hb : notWS b = false := dropWhileHeadFalse hrc
        have hlast2 : ∀ d, (b :: rest).getLast? = some d → isJsWS d = false := by
          intro d hd
          apply hlast
          rw [← hsplit, hrc, List.getLast?_append, hd]
          rfl
        obtain ⟨glc, hgl⟩ : ∃ d, (b :: rest).getLast? = some d := by
          cases hgg : (b :: rest).getLast? with
          | none => exact absurd (List.getLast?_eq_none_iff.mp hgg) (by simp)
          | some d => exact ⟨d, rfl⟩
        have hglw : isJsWS glc = false := hlast2 glc hgl
        have hr2 : (b :: rest).dropWhile isJsWS ≠ [] := by
          intro hnil
          have hallws := List.dropWhile_eq_nil_iff.mp hnil
          exact absurd (hallws glc (memOfGetLast hgl)) (by simp [hglw])
        cases hr3 : (b :: rest).dropWhile isJsWS with
        | nil => exact absurd hr3 hr2
        | cons e r2 =>
          have hehead : isJsWS e = false := dropWhileHeadFalse hr3
          have hglr : (e :: r2).getLast? = some glc := by
            have hsplit2 := List.takeWhile_append_dropWhile (p := isJsWS) (l := b :: rest)
            rw [hr3] at hsplit2
            rw [← hsplit2, List.getLast?_append] at hgl
            cases hgg2 : (e :: r2).getLast? with
            | none => exact absurd (List.getLast?_eq_none_iff.mp hgg2) (by simp)
            | some d2 =>
              rw [hgg2] at hgl
              simpa using hgl
          have hlen : (e :: r2).length ≤ n := by
            have h1 : (e :: r2).length ≤ (b :: rest).length := hr3 ▸ lengthDropWhileLe _ _
            have h2 : (b :: rest).length < (c :: t).length := by
              have hlenadd := congrArg List.length hsplit
              rw [hrc, hseg] at hlenadd
              simp only [List.length_append, List.length_cons] at hlenadd
              simp only [List.length_cons]
              omega
            simp only [List.length_cons] at h1 h2 hm ⊢
            omega
          have hih := ih (e :: r2) hlen (by simp)
            (fun d r hd => by
              injection hd with hd1 hd2
              exact hd1 ▸ hehead)
            (fun d hd => by
              rw [hglr] at hd
              injection hd with hd1
              exact hd1 ▸ hglw)
          rw [hih, wordsOf_eq (c :: t), hw0, if_neg (by simp), hrc,
            ← wordsOf_dropWS (b :: rest), hr3]

theorem trimJs_nil_of_allWS {l : List Char} (h : ∀ c ∈ l, isJsWS c = true) :
    trimJs l = [] := by
  unfold trimJs
  rw [List.dropWhile_eq_nil_iff.mpr h]
  rfl

theorem normalizeL_words (l : List Char) :
    normalizeL l = List.intercalate ['.'] ((wordsOf l).map titlecase) := by
  unfold normalizeL
  by_cases hw : wordsOf l = []
  · have hall := (wordsOf_eq_nil_iff l).mp hw
    rw [trimJs_nil_of_allWS hall, hw]
    rfl
  · have hne : trimJs l ≠ [] := by
      intro h0
      rw [← wordsOf_trimJs l, h0] at hw
      exact hw rfl
    rw [splitWS_trimmed (trimJs l).length (trimJs l) (le_refl _) hne
      (fun c r h => trimJs_head h) (fun c h => trimJs_getLast h), wordsOf_trimJs]

/-! ## Intercalation and title-casing -/

theorem intercalate_nil (sep : List Char) :
    List.intercalate sep ([] : List (List Char)) = [] := by
  simp [List.intercalate]

theorem intercalate_single (sep x : List Char) : List.intercalate sep [x] = x := by
  simp [List.intercalate]

theorem intercalate_cons2 (sep x y : List Char) (rest : List (List Char)) :
    List.intercalate sep (x :: y :: rest) = x ++ sep ++ List.intercalate sep (y :: rest) := by
  simp [List.intercalate, List.intersperse_cons_cons, List.append_assoc]

theorem mapIntercalate (f : Char → Char) :
    ∀ (L : List (List Char)), (List.intercalate ['.'] L).map f =
      List.intercalate [f '.'] (L.map (List.map f)) := by
  intro L
  induction L with
  | nil => simp [List.intercalate]
  | cons x L ih =>
    cases L with
    | nil => simp [intercalate_single]
    | cons y rest =>
      rw [intercalate_cons2, List.map_append, List.map_append, ih]
      conv_rhs => rw [List.map_cons, List.map_cons, intercalate_cons2]
      rfl

theorem titlecase_ne_nil {w : List Char} (h : w ≠ []) : titlecase w ≠ [] := by
  cases w with
  | nil => exact absurd rfl h
  | cons c r => simp [titlecase]

theorem titlecase_notWS {w : List Char} (h : ∀ c ∈ w, notWS c = true) :
    ∀ c ∈ titlecase w, notWS c = true := by
  cases w with
  | nil => simp [titlecase]
  | cons c r =>
    intro d hd
    rcases List.mem_cons.mp hd with h1 | h2
    · subst h1
      have := h c (by simp)
      unfold notWS at this ⊢
      rw [isJsWS_toUpperJ]
      exact this
    · obtain ⟨e, he, rfl⟩ := List.mem_map.mp h2
      have := h e (by simp [he])
      unfold notWS at this ⊢
      rw [isJsWS_toLowerJ]
      exact this

theorem titlecase_no_dot {w : List Char} (h : ('.' : Char) ∉ w) :
    ('.' : Char) ∉ titlecase w := by
  cases w with
  | nil => simp [titlecase]
  | cons c r =>
    intro hd
    rcases List.mem_cons.mp hd with h1 | h2
    · exact toUpperJ_ne_dot (fun hc => h (hc ▸ List.mem_cons_self c r)) h1.symm
    · obtain ⟨e, he, heq⟩ := List.mem_map.mp h2
      exact toLowerJ_ne_dot (fun hc => h (hc ▸ List.mem_cons_of_mem c he)) heq

theorem titlecase_titlecase (w : List Char) : titlecase (titlecase w) = titlecase w := by
  cases w with
  | nil => rfl
  | cons c r =>
    show toUpperJ (toUpperJ c) :: (r.map toLowerJ).map toLowerJ = _
    rw [toUpperJ_toUpperJ, List.map_map]
    congr 1
    apply List.map_congr_left
    intro a _
    exact toLowerJ_toLowerJ a

/-! ## C6: the shape of `normalizeShowName` -/

/-- C6 counterexample: the claim says a single-word name yields one token with
no dot, but "a.b" is a single whitespace-separated word (no whitespace at all)
whose normalization "A.b" contains a dot: `normalizeShowName` only refrains
from appending a joining dot, it does not remove dots inside the word. -/
theorem normalizeShowName_single_word_dot :
    (∀ c ∈ ("a.b" : String).data, isJsWS c = false) ∧
    wordsOf ("a.b" : String).data = [("a.b" : String).data] ∧
    normalizeShowName "a.b" = "A.b" ∧
    '.' ∈ (normalizeShowName "a.b").data := by
  exact ⟨by decide, by decide, by decide, by decide⟩

/-- C6 (amended): `normalizeShowName` trims leading and trailing whitespace,
collapses internal whitespace runs, title-cases each word (first character
upper-cased, remainder lower-cased), and joins the words with a literal dot;
a single-word name yields that single title-cased word with no joining dot
appended (the word itself may contain dots); and
`normalizeShowName "  the   rookie  " = "The.Rookie"`.  The function is a
total Lean function, so it is pure and total with no error conditions. -/
theorem normalizeShowName_spec :
    (∀ s : String, (normalizeShowName s).data =
      List.intercalate ['.'] ((wordsOf s.data).map titlecase)) ∧
    (∀ (s : String) (w : List Char), wordsOf s.data = [w] →
      (normalizeShowName s).data = titlecase w) ∧
    normalizeShowName "  the   rookie  " = "The.Rookie" := by
  refine ⟨?_, ?_, by decide⟩
  · intro s
    exact normalizeL_words s.data
  · intro s w hw
    have h1 := normalizeL_words s.data
    rw [hw] at h1
    rw [show (normalizeShowName s).data = normalizeL s.data from rfl, h1,
      List.map_cons, List.map_nil, intercalate_single]

/-- Witness for the C6 theorem: its single-word clause applied at "hello". -/
theorem normalizeShowName_spec_witness :
    (normalizeShowName "hello").data = titlecase ("hello" : String).data :=
  normalizeShowName_spec.2.1 "hello" ("hello" : String).data (by decide)

/-! ## C9: an all-whitespace show name matches every filename -/

/-- C9: when the show name is empty or all whitespace it splits into zero
words, the universal quantification is vacuous, and `showNameMatchesFilename`
returns true for every filename. -/
theorem showNameMatchesFilename_whitespace (showName filename : String)
    (h : ∀ c ∈ showName.data, isJsWS c = true) :
    showNameMatchesFilename showName filename = true := by
  unfold showNameMatchesFilename
  have hlw : ∀ c ∈ showName.data.map toLowerJ, isJsWS c = true := by
    intro c hc
    obtain ⟨d, hd, rfl⟩ := List.mem_map.mp hc
    rw [isJsWS_toLowerJ]
    exact h d hd
  have hw : jsWords (showName.data.map toLowerJ) = [] := by
    rw [jsWords_eq_wordsOf]
    exact (wordsOf_eq_nil_iff _).mpr hlw
  rw [hw]
  rfl

/-- Witness for the C9 theorem at a whitespace-only show name. -/
theorem showNameMatchesFilename_whitespace_witness :
    showNameMatchesFilename "   " "whatever.mkv" = true :=
  showNameMatchesFilename_whitespace "   " "whatever.mkv" (by decide)

/-! ## C4: word-for-word matching -/

/-- C4: `showNameMatchesFilename` returns true iff every lower-cased
whitespace-separated word of the show name occurs, exactly and in full, among
the words of the filename obtained by lower-casing and replacing `.`, `-`, `_`
with spaces; word order is irrelevant (membership ignores positions), and in
particular the substring occurrence of "rookie" inside "therookie" does not
count as a match. -/
theorem showNameMatchesFilename_spec :
    (∀ (showName filename : String),
      showNameMatchesFilename showName filename = true ↔
        ∀ w ∈ wordsOf (showName.data.map toLowerJ),
          w ∈ wordsOf ((filename.data.map toLowerJ).map sepToSpace)) ∧
    showNameMatchesFilename "Rookie" "Therookie.S04E07.mkv" = false := by
  refine ⟨?_, by decide⟩
  intro showName filename
  unfold showNameMatchesFilename
  rw [jsWords_eq_wordsOf, jsWords_eq_wordsOf, List.all_eq_true]
  constructor
  · intro hall w hw
    have h1 := hall w hw
    rw [List.any_eq_true] at h1
    obtain ⟨fw, hfw, heq⟩ := h1
    rw [show fw = w from by simpa using heq] at hfw
    exact hfw
  · intro hmem w hw
    rw [List.any_eq_true]
    exact ⟨w, hmem w hw, by simp⟩

/-- Witness for the C4 theorem: a matching and a non-matching instance. -/
theorem showNameMatchesFilename_spec_witness :
    showNameMatchesFilename "The Rookie" "the.rookie.S04E07.mkv" = true :=
  (showNameMatchesFilename_spec.1 "The Rookie" "the.rookie.S04E07.mkv").mpr (by decide)

/-! ## C7: idempotence of normalization -/

theorem wordsOf_word_cons {t : List Char} (hne : t ≠ []) (hnw : ∀ c ∈ t, notWS c = true)
    (z : List Char) : wordsOf (t ++ ' ' :: z) = t :: wordsOf z := by
  obtain ⟨c, t1, rfl⟩ : ∃ c t1, t = c :: t1 := by
    cases t with
    | nil => exact absurd rfl hne
    | cons c t1 => exact ⟨c, t1, rfl⟩
  have hc : notWS c = true := hnw c (by simp)
  have hcws : isJsWS c = false := by
    unfold notWS at hc
    simpa using hc
  have hsp : isJsWS ' ' = true := by decide
  have h1 : ((c :: t1) ++ ' ' :: z).dropWhile isJsWS = (c :: t1) ++ ' ' :: z := by
    rw [List.cons_append, List.dropWhile_cons, if_neg (by simp [hcws])]
  have h2 : ((c :: t1) ++ ' ' :: z).takeWhile notWS = c :: t1 := by
    rw [List.takeWhile_append_of_pos hnw, List.takeWhile_cons,
      if_neg (by unfold notWS; simp [hsp]), List.append_nil]
  have h3 : ((c :: t1) ++ ' ' :: z).dropWhile notWS = ' ' :: z := by
    rw [List.dropWhile_append_of_pos hnw, List.dropWhile_cons,
      if_neg (by unfold notWS; simp [hsp])]
  rw [wordsOf_eq, h1, if_neg (by simp), h2, h3]
  congr 1
  apply wordsOf_congr
  rw [List.dropWhile_cons, if_pos hsp]

theorem wordsOf_intercalate_space :
    ∀ ts : List (List Char), (∀ t ∈ ts, t ≠ [] ∧ ∀ c ∈ t, notWS c = true) →
      wordsOf (List.intercalate [' '] ts) = ts := by
  intro ts
  induction ts with
  | nil =>
    intro _
    rw [intercalate_nil]
    rfl
  | cons x ts ih =>
    intro h
    cases ts with
    | nil =>
      rw [intercalate_single]
      exact wordsOf_all_notWS (h x (by simp)).2 (h x (by simp)).1
    | cons y rest =>
      have harr : (x ++ [' ']) ++ List.intercalate [' '] (y :: rest) =
          x ++ ' ' :: List.intercalate [' '] (y :: rest) := by
        rw [List.append_assoc]
        rfl
      rw [intercalate_cons2, harr,
        wordsOf_word_cons (h x (by simp)).1 (h x (by simp)).2,
        ih (fun t ht => h t (by simp [ht]))]

set_option maxHeartbeats 1600000 in
/-- C7 counterexample: with the reference language's `replace(".", " ")`, which
replaces only the first occurrence, the stated idempotence equation already
fails at `x = "a b c"`: the inner normalization gives "A.B.C", the replacement
gives "A B.C", and renormalizing gives "A.B.c" ≠ "A.B.C". -/
theorem normalize_replace_first_not_idempotent :
    normalizeShowName "a b c" = "A.B.C" ∧
    strReplaceFirstDot (normalizeShowName "a b c") = "A B.C" ∧
    normalizeShowName (strReplaceFirstDot (normalizeShowName "a b c")) = "A.B.c" ∧
    normalizeShowName (strReplaceFirstDot (normalizeShowName "a b c")) ≠
      normalizeShowName "a b c" := by
  exact ⟨by decide, by decide, by decide, by decide⟩

/-- C7 (amended): for every input containing no `.` character, replacing every
dot of the normalized name by a space and normalizing again reproduces the
normalized name:
`normalizeShowName (strReplaceAllDot (normalizeShowName x)) = normalizeShowName x`.
(The original claim used the reference language's first-occurrence `replace`,
which the counterexample above refutes; dots inside the input would likewise
break the equation, whence the dot-free hypothesis.) -/
theorem normalizeShowName_idempotent (s : String) (h : ('.' : Char) ∉ s.data) :
    normalizeShowName (strReplaceAllDot (normalizeShowName s)) = normalizeShowName s := by
  have hprops : ∀ w ∈ wordsOf s.data,
      w ≠ [] ∧ (∀ c ∈ w, notWS c = true) ∧ ('.' : Char) ∉ w := by
    intro w hw
    refine ⟨mem_wordsOf_ne_nil hw, mem_wordsOf_notWS hw, ?_⟩
    intro hd
    exact h (mem_wordsOf_subset hw '.' hd)
  have h1 : (normalizeShowName s).data =
      List.intercalate ['.'] ((wordsOf s.data).map titlecase) := normalizeL_words s.data
  have hts : ∀ t ∈ (wordsOf s.data).map titlecase,
      t ≠ [] ∧ (∀ c ∈ t, notWS c = true) ∧
        t.map (fun c => if c = '.' then ' ' else c) = t := by
    intro t ht
    obtain ⟨w, hw, rfl⟩ := List.mem_map.mp ht
    obtain ⟨hne, hnw, hnd⟩ := hprops w hw
    refine ⟨titlecase_ne_nil hne, titlecase_notWS hnw, ?_⟩
    have hnd2 := titlecase_no_dot hnd
    have hfix : ∀ c ∈ titlecase w, (fun c => if c = '.' then ' ' else c) c = id c := by
      intro c hc
      simp only [id]
      rw [if_neg (fun hcd => hnd2 (by rw [← hcd]; exact hc))]
    rw [List.map_congr_left hfix, List.map_id]
  have h2 : (strReplaceAllDot (normalizeShowName s)).data =
      List.intercalate [' '] ((wordsOf s.data).map titlecase) := by
    show (normalizeShowName s).data.map (fun c => if c = '.' then ' ' else c) = _
    rw [h1, mapIntercalate]
    have hsep : [(fun c => if c = '.' then ' ' else c) '.'] = ([' '] : List Char) := by decide
    rw [hsep]
    congr 1
    have hmapfix : ∀ t ∈ (wordsOf s.data).map titlecase,
        t.map (fun c => if c = '.' then ' ' else c) = id t := by
      intro t ht
      exact (hts t ht).2.2
    rw [List.map_congr_left hmapfix, List.map_id]
  have h5 : wordsOf (strReplaceAllDot (normalizeShowName s)).data =
      (wordsOf s.data).map titlecase := by
    rw [h2]
    exact wordsOf_intercalate_space _ (fun t ht => ⟨(hts t ht).1, (hts t ht).2.1⟩)
  show String.mk (normalizeL (strReplaceAllDot (normalizeShowName s)).data) =
    String.mk (normalizeL s.data)
  apply congrArg
  rw [normalizeL_words, normalizeL_words, h5, List.map_map]
  apply congrArg
  apply List.map_congr_left
  intro w _
  show titlecase (titlecase w) = titlecase w
  exact titlecase_titlecase w

/-- Witness for the C7 theorem at a concrete dot-free input. -/
theorem normalizeShowName_idempotent_witness :
    normalizeShowName (strReplaceAllDot (normalizeShowName "the rookie")) =
      normalizeShowName "the rookie" :=
  normalizeShowName_idempotent "the rookie" (by decide)

/-! ## The insertion-ordered tally -/

theorem tallyGet_bump (m : List (String × Nat)) (k k2 : String) :
    tallyGet (bumpCount m k) k2 = if k2 = k then tallyGet m k2 + 1 else tallyGet m k2 := by
  induction m with
  | nil =>
    show tallyGet [(k, 1)] k2 = _
    by_cases h : k2 = k
    · subst h
      simp [tallyGet]
    · simp [tallyGet, h, Ne.symm h]
  | cons p rest ih =>
    obtain ⟨k0, n⟩ := p
    show tallyGet (if k0 = k then (k0, n + 1) :: rest else (k0, n) :: bumpCount rest k) k2 = _
    by_cases h0 : k0 = k
    · subst h0
      rw [if_pos rfl]
      show (if k0 = k2 then n + 1 else tallyGet rest k2) = _
      by_cases h2 : k2 = k0
      · subst h2
        rw [if_pos rfl, if_pos rfl]
        show n + 1 = (if k2 = k2 then n else tallyGet rest k2) + 1
        rw [if_pos rfl]
      · rw [if_neg (fun hh => h2 hh.symm), if_neg h2]
        show tallyGet rest k2 = if k0 = k2 then n else tallyGet rest k2
        rw [if_neg (fun hh => h2 hh.symm)]
    · rw [if_neg h0]
      show (if k0 = k2 then n else tallyGet (bumpCount rest k) k2) = _
      by_cases h2 : k0 = k2
      · rw [if_pos h2, if_neg (fun hh => h0 (h2.trans hh))]
        show n = if k0 = k2 then n else tallyGet rest k2
        rw [if_pos h2]
      · rw [if_neg h2, ih]
        by_cases h3 : k2 = k
        · rw [if_pos h3, if_pos h3]
          show tallyGet rest k2 + 1 = (if k0 = k2 then n else tallyGet rest k2) + 1
          rw [if_neg h2]
        · rw [if_neg h3, if_neg h3]
          show tallyGet rest k2 = if k0 = k2 then n else tallyGet rest k2
          rw [if_neg h2]

theorem keys_bump (m : List (String × Nat)) (k : String) :
    (bumpCount m k).map Prod.fst =
      if k ∈ m.map Prod.fst then m.map Prod.fst else m.map Prod.fst ++ [k] := by
  induction m with
  | nil => simp [bumpCount]
  | cons p rest ih =>
    obtain ⟨k0, n⟩ := p
    by_cases h0 : k0 = k
    · subst h0
      simp [bumpCount]
    · show ((if k0 = k then (k0, n + 1) :: rest else (k0, n) :: bumpCount rest k).map Prod.fst) = _
      rw [if_neg h0, List.map_cons, ih]
      by_cases h1 : k ∈ rest.map Prod.fst
      · rw [if_pos h1, if_pos (by simp [h1]), List.map_cons]
      · rw [if_neg h1, if_neg (by simp [h1, Ne.symm h0]), List.map_cons, List.cons_append]

theorem mem_tallyGet {m : List (String × Nat)} (hnd : (m.map Prod.fst).Nodup)
    {p : String × Nat} (hp : p ∈ m) : p.2 = tallyGet m p.1 := by
  induction m with
  | nil => simp at hp
  | cons q rest ih =>
    obtain ⟨k0, n⟩ := q
    simp only [List.map_cons, List.nodup_cons] at hnd
    rcases List.mem_cons.mp hp with h1 | h2
    · subst h1
      simp [tallyGet]
    · have hne : k0 ≠ p.1 := by
        intro hh
        exact hnd.1 (hh ▸ (List.mem_map.mpr ⟨p, h2, rfl⟩))
      rw [show tallyGet ((k0, n) :: rest) p.1 = if k0 = p.1 then n else tallyGet rest p.1
        from rfl, if_neg hne]
      exact ih hnd.2 h2

theorem keys_mem_entry {m : List (String × Nat)} {k : String}
    (h : k ∈ m.map Prod.fst) : (k, tallyGet m k) ∈ m := by
  induction m with
  | nil => simp at h
  | cons q rest ih =>
    obtain ⟨k0, n⟩ := q
    by_cases h0 : k0 = k
    · subst h0
      rw [show tallyGet ((k0, n) :: rest) k0 = if k0 = k0 then n else tallyGet rest k0
        from rfl, if_pos rfl]
      exact List.mem_cons_self _ _
    · have h2 : k ∈ rest.map Prod.fst := by
        simp only [List.map_cons, List.mem_cons] at h
        rcases h with h | h
        · exact absurd h.symm h0
        · exact h
      rw [show tallyGet ((k0, n) :: rest) k = if k0 = k then n else tallyGet rest k
        from rfl, if_neg h0]
      exact List.mem_cons_of_mem _ (ih h2)

theorem tally_go (l : List String) :
    ∀ (m : List (String × Nat)),
      (∀ k, tallyGet (l.foldl bumpCount m) k = tallyGet m k + l.count k) ∧
      (∀ k, k ∈ (l.foldl bumpCount m).map Prod.fst ↔ k ∈ m.map Prod.fst ∨ k ∈ l) ∧
      ((m.map Prod.fst).Nodup → ((l.foldl bumpCount m).map Prod.fst).Nodup) := by
  induction l with
  | nil =>
    intro m
    refine ⟨fun k => by simp, fun k => by simp, fun h => by simpa using h⟩
  | cons a l ih =>
    intro m
    simp only [List.foldl_cons]
    obtain ⟨ih1, ih2, ih3⟩ := ih (bumpCount m a)
    refine ⟨?_, ?_, ?_⟩
    · intro k
      rw [ih1, tallyGet_bump, List.count_cons]
      by_cases h : k = a
      · subst h
        simp only [if_pos rfl, beq_self_eq_true, if_true]
        omega
      · rw [if_neg h, if_neg (by simp [Ne.symm h])]
        omega
    · intro k
      rw [ih2]
      have hk : k ∈ (bumpCount m a).map Prod.fst ↔ k ∈ m.map Prod.fst ∨ k = a := by
        rw [keys_bump]
        by_cases h1 : a ∈ m.map Prod.fst
        · rw [if_pos h1]
          constructor
          · exact Or.inl
          · intro hh
            rcases hh with hh | hh
            · exact hh
            · exact hh ▸ h1
        · rw [if_neg h1]
          simp [List.mem_append]
      rw [hk]
      simp only [List.mem_cons]
      tauto
    · intro hnd
      apply ih3
      rw [keys_bump]
      by_cases h1 : a ∈ m.map Prod.fst
      · rw [if_pos h1]
        exact hnd
      · rw [if_neg h1]
        simp [List.nodup_append, hnd, h1]

theorem tallyGet_count (l : List String) (k : String) : tallyGet (tally l) k = l.count k := by
  have h := (tally_go l []).1 k
  unfold tally
  rw [h]
  simp [tallyGet]

theorem tally_keys_mem (l : List String) (k : String) :
    k ∈ (tally l).map Prod.fst ↔ k ∈ l := by
  have h := ((tally_go l []).2.1) k
  unfold tally
  rw [h]
  simp

theorem tally_keys_nodup (l : List String) : ((tally l).map Prod.fst).Nodup := by
  exact (tally_go l []).2.2 (by simp)

theorem mem_tally_count {l : List String} {p : String × Nat} (hp : p ∈ tally l) :
    p.2 = l.count p.1 ∧ p.1 ∈ l := by
  have h1 := mem_tallyGet (tally_keys_nodup l) hp
  rw [tallyGet_count] at h1
  refine ⟨h1, ?_⟩
  exact (tally_keys_mem l p.1).mp (List.mem_map.mpr ⟨p, hp, rfl⟩)

theorem count_mem_tally {l : List String} {k : String} (h : k ∈ l) :
    (k, l.count k) ∈ tally l := by
  have h1 := keys_mem_entry ((tally_keys_mem l k).mpr h)
  rwa [tallyGet_count] at h1

theorem checkForConflicts_mem (ops : List RenameOperation) (name : String) :
    name ∈ checkForConflicts ops ↔ 2 ≤ (ops.map RenameOperation.newName).count name := by
  unfold checkForConflicts
  rw [← List.foldl_map (f := RenameOperation.newName) (g := bumpCount)]
  show name ∈ ((tally (ops.map RenameOperation.newName)).filter _).map Prod.fst ↔ _
  constructor
  · intro h
    obtain ⟨p, hpf, rfl⟩ := List.mem_map.mp h
    have hp2 := List.mem_filter.mp hpf
    have hcount := (mem_tally_count hp2.1).1
    have hgt : 1 < p.2 := by simpa using hp2.2
    omega
  · intro h
    have hmem : name ∈ ops.map RenameOperation.newName :=
      List.count_pos_iff_mem.mp (by omega)
    have hentry := count_mem_tally hmem
    apply List.mem_map.mpr
    refine ⟨(name, (ops.map RenameOperation.newName).count name),
      List.mem_filter.mpr ⟨hentry, by simp; omega⟩, rfl⟩

theorem checkForConflicts_nodup (ops : List RenameOperation) :
    (checkForConflicts ops).Nodup := by
  unfold checkForConflicts
  rw [← List.foldl_map (f := RenameOperation.newName) (g := bumpCount)]
  show (((tally (ops.map RenameOperation.newName)).filter _).map Prod.fst).Nodup
  exact List.Nodup.sublist (List.Sublist.map _ (List.filter_sublist _)) (tally_keys_nodup _)

/-! ## C5: conflict detection over non-skipped operations -/

/-- C5: over a list of non-skipped rename operations, `checkForConflicts`
returns exactly the set of `newName` values occurring in two or more
operations (membership iff count at least two, without duplicates), and the
empty list when all `newName` values are distinct. -/
theorem checkForConflicts_spec (ops : List RenameOperation)
    (h : ∀ op ∈ ops, op.skipped = false) :
    (∀ name, name ∈ checkForConflicts ops ↔
      2 ≤ (ops.map RenameOperation.newName).count name) ∧
    (checkForConflicts ops).Nodup ∧
    ((ops.map RenameOperation.newName).Nodup → checkForConflicts ops = []) := by
  refine ⟨checkForConflicts_mem ops, checkForConflicts_nodup ops, ?_⟩
  intro hnd
  have hcount := List.nodup_iff_count_le_one.mp hnd
  cases hc : checkForConflicts ops with
  | nil => rfl
  | cons x rest =>
    have hx : x ∈ checkForConflicts ops := by rw [hc]; simp
    have h1 := (checkForConflicts_mem ops x).mp hx
    have h2 := hcount x
    omega

/-- Witness for the C5 theorem: two operations with the same target name. -/
theorem checkForConflicts_spec_witness :
    "Show.S01E01.mkv" ∈ checkForConflicts
      [⟨"/tv/a.mkv", "/tv/Show.S01E01.mkv", "a.mkv", "Show.S01E01.mkv", false, none⟩,
       ⟨"/tv/b.mkv", "/tv/Show.S01E01.mkv", "b.mkv", "Show.S01E01.mkv", false, none⟩] :=
  ((checkForConflicts_spec _ (by decide)).1 "Show.S01E01.mkv").mpr (by decide)

/-! ## C10: the conflict check counts skipped operations too -/

/-- C10: `checkForConflicts` tallies the `newName` of every operation of its
input, skipped ones included (membership iff the name reaches count two over
the whole list); consequently, on any list containing two or more skipped
operations — which carry the empty `newName` — the empty string appears in the
returned conflict list, so a caller must filter to non-skipped operations
first, as the CLI does with its `validOps`. -/
theorem checkForConflicts_counts_skipped (ops : List RenameOperation)
    (h1 : 2 ≤ (ops.filter (fun op => op.skipped)).length)
    (h2 : ∀ op ∈ ops, op.skipped = true → op.newName = "") :
    (∀ name, name ∈ checkForConflicts ops ↔
      2 ≤ (ops.map RenameOperation.newName).count name) ∧
    "" ∈ checkForConflicts ops := by
  refine ⟨checkForConflicts_mem ops, ?_⟩
  apply (checkForConflicts_mem ops "").mpr
  have hc1 : (ops.map RenameOperation.newName).count "" =
      ops.countP (fun op => op.newName == "") := by
    rw [List.count, List.countP_map]
    rfl
  have hc2 : (ops.filter (fun op => op.skipped)).length =
      ops.countP (fun op => op.skipped) := (List.countP_eq_length_filter _ _).symm
  have hmono : ops.countP (fun op => op.skipped) ≤
      ops.countP (fun op => op.newName == "") := by
    apply List.countP_mono_left
    intro op hop hskip
    simp only [beq_iff_eq]
    exact h2 op hop (by simpa using hskip)
  omega

/-- Witness for the C10 theorem: two skipped operations force the empty string
into the conflict list. -/
theorem checkForConflicts_counts_skipped_witness :
    "" ∈ checkForConflicts
      [⟨"/tv/a.txt", "", "a.txt", "", true, some "No S##E## pattern found"⟩,
       ⟨"/tv/b.txt", "", "b.txt", "", true, some "No S##E## pattern found"⟩] :=
  (checkForConflicts_counts_skipped _ (by decide) (by decide)).2

/-! ## C8: null results of the inference engine -/

theorem extractShowName_none_of_noMarker {f : String}
    (h : extractSeasonEpisode f = none) : extractShowNameFromFilename f = none := by
  unfold extractSeasonEpisode at h
  unfold extractShowNameFromFilename
  cases hf : findSEsplit f.data with
  | none => rfl
  | some t =>
    obtain ⟨pre, se, ep⟩ := t
    rw [hf] at h
    exact absurd h (by simp)

/-- C8: `inferShowName` returns `{ showName := none, confidence := low }` with
no `conflictingNames` both on the empty input and on any input whose filenames
all lack a season/episode marker (so every candidate extraction yields null);
being a total Lean function, it never throws. -/
theorem inferShowName_total_null :
    inferShowName [] = ⟨none, Confidence.low, none⟩ ∧
    ∀ filenames : List String, (∀ f ∈ filenames, extractSeasonEpisode f = none) →
      inferShowName filenames = ⟨none, Confidence.low, none⟩ := by
  refine ⟨rfl, ?_⟩
  intro fns h
  have hex : extractedNames fns = [] := by
    unfold extractedNames
    rw [List.filterMap_eq_nil]
    intro f hf
    exact extractShowName_none_of_noMarker (h f hf)
  unfold inferShowName
  by_cases hfe : fns.isEmpty = true
  · rw [if_pos hfe]
  · rw [if_neg hfe, if_pos (by rw [hex]; rfl)]

/-- Witness for the C8 theorem on a marker-free file list. -/
theorem inferShowName_total_null_witness :
    inferShowName ["notes.txt"] = ⟨none, Confidence.low, none⟩ :=
  inferShowName_total_null.2 ["notes.txt"] (by decide)

/-! ## The `count > maxCount` scan -/

theorem pickMost_go (l : List (String × Nat)) :
    ∀ acc : Option String × Nat,
      (l.foldl (fun acc p => if acc.2 < p.2 then (some p.1, p.2) else acc) acc = acc ∧
        ∀ p ∈ l, p.2 ≤ acc.2) ∨
      (∃ q ∈ l, l.foldl (fun acc p => if acc.2 < p.2 then (some p.1, p.2) else acc) acc =
        (some q.1, q.2) ∧ acc.2 < q.2 ∧ ∀ p ∈ l, p.2 ≤ q.2) := by
  induction l with
  | nil =>
    intro acc
    left
    exact ⟨rfl, by simp⟩
  | cons p0 l ih =>
    intro acc
    simp only [List.foldl_cons]
    by_cases h : acc.2 < p0.2
    · rw [if_pos h]
      rcases ih (some p0.1, p0.2) with ⟨heq, hle⟩ | ⟨q, hq, heq, hlt, hle⟩
      · right
        refine ⟨p0, by simp, by rw [heq], h, ?_⟩
        intro p hp
        rcases List.mem_cons.mp hp with h1 | h2
        · exact h1 ▸ le_refl _
        · exact hle p h2
      · right
        refine ⟨q, List.mem_cons_of_mem _ hq, heq, ?_, ?_⟩
        · exact lt_trans h hlt
        · intro p hp
          rcases List.mem_cons.mp hp with h1 | h2
          · subst h1
            exact le_of_lt hlt
          · exact hle p h2
    · rw [if_neg h]
      rcases ih acc with ⟨heq, hle⟩ | ⟨q, hq, heq, hlt, hle⟩
      · left
        refine ⟨heq, ?_⟩
        intro p hp
        rcases List.mem_cons.mp hp with h1 | h2
        · subst h1
          omega
        · exact hle p h2
      · right
        refine ⟨q, List.mem_cons_of_mem _ hq, heq, hlt, ?_⟩
        intro p hp
        rcases List.mem_cons.mp hp with h1 | h2
        · subst h1
          omega
        · exact hle p h2

theorem pickMost_tally {l : List String} (hne : l ≠ []) :
    ∃ w, pickMost (tally l) = (some w, l.count w) ∧ w ∈ l ∧
      ∀ n, l.count n ≤ l.count w := by
  rcases pickMost_go (tally l) (none, 0) with ⟨_, hle⟩ | ⟨q, hq, heq, _, hle⟩
  · exfalso
    obtain ⟨a, ha⟩ : ∃ a, a ∈ l := by
      cases l with
      | nil => exact absurd rfl hne
      | cons a t => exact ⟨a, by simp⟩
    have hb := hle _ (count_mem_tally ha)
    have hpos : 0 < l.count a := List.count_pos_iff.mpr ha
    simp at hb
    omega
  · obtain ⟨hcount, hmem⟩ := mem_tally_count hq
    refine ⟨q.1, ?_, hmem, ?_⟩
    · show (tally l).foldl _ (none, 0) = _
      rw [heq, hcount]
    · intro n
      by_cases hn : n ∈ l
      · have hb := hle _ (count_mem_tally hn)
        rw [hcount] at hb
        exact hb
      · rw [List.count_eq_zero.mpr hn]
        omega

/-! ## Exact rational forms of the floating thresholds -/

theorem pctEq100_iff {m t : Nat} (ht : 0 < t) :
    ((m : ℚ) / (t : ℚ) * 100 = 100) ↔ m * 100 = t * 100 := by
  have ht0 : ((t : ℚ)) ≠ 0 := by
    exact_mod_cast ht.ne'
  rw [div_mul_eq_mul_div, div_eq_iff ht0,
    show (100 : ℚ) * (t : ℚ) = ((t * 100 : Nat) : ℚ) by push_cast; ring,
    show (m : ℚ) * 100 = ((m * 100 : Nat) : ℚ) by push_cast; ring]
  exact Nat.cast_inj

theorem pct80_iff {m t : Nat} (ht : 0 < t) :
    ((80 : ℚ) ≤ (m : ℚ) / (t : ℚ) * 100) ↔ 80 * t ≤ m * 100 := by
  have ht0 : ((0 : ℚ)) < (t : ℚ) := by
    exact_mod_cast ht
  rw [div_mul_eq_mul_div, le_div_iff ht0,
    show (80 : ℚ) * (t : ℚ) = ((80 * t : Nat) : ℚ) by push_cast; ring,
    show (m : ℚ) * 100 = ((m * 100 : Nat) : ℚ) by push_cast; ring]
  exact Nat.cast_le

/-! ## C1: classification of the inferred show name -/

/-- C1: whenever at least one candidate name is extracted, `inferShowName`
picks a highest-count candidate as `showName`, and classifies confidence from
`matchPercentage = maxCount / totalCandidates * 100` (stated here in exact
rational arithmetic, which agrees with the reference's floating-point
comparisons for every representable list length): exactly 100 gives `high`
with no `conflictingNames`; at least 80 and below 100 gives `medium`; below 80
gives `low`; in the medium and low cases `conflictingNames` holds exactly the
distinct extracted names other than the winner and is present only when that
set is non-empty. -/
theorem inferShowName_spec (filenames : List String)
    (h : extractedNames filenames ≠ []) :
    (inferShowName filenames).showName ≠ none ∧
    ∀ w, (inferShowName filenames).showName = some w →
      w ∈ extractedNames filenames ∧
      (∀ n, (extractedNames filenames).count n ≤ (extractedNames filenames).count w) ∧
      (((extractedNames filenames).count w : ℚ) /
          ((extractedNames filenames).length : ℚ) * 100 = 100 →
        inferShowName filenames = ⟨some w, Confidence.high, none⟩) ∧
      ((80 : ℚ) ≤ ((extractedNames filenames).count w : ℚ) /
          ((extractedNames filenames).length : ℚ) * 100 →
        ((extractedNames filenames).count w : ℚ) /
          ((extractedNames filenames).length : ℚ) * 100 < 100 →
        (inferShowName filenames).confidence = Confidence.medium ∧
          ConflictSpec filenames w) ∧
      (((extractedNames filenames).count w : ℚ) /
          ((extractedNames filenames).length : ℚ) * 100 < 80 →
        (inferShowName filenames).confidence = Confidence.low ∧
          ConflictSpec filenames w) := by
  have hfne : filenames ≠ [] := by
    intro h0
    subst h0
    exact h rfl
  have hcond1 : filenames.isEmpty = false := by
    cases filenames with
    | nil => exact absurd rfl hfne
    | cons a t => rfl
  have hcond2 : (extractedNames filenames).isEmpty = false := by
    cases hx : extractedNames filenames with
    | nil => exact absurd hx h
    | cons a t => rfl
  obtain ⟨w0, hpick, hmem0, hmax0⟩ := pickMost_tally h
  have hlen : 0 < (extractedNames filenames).length := List.length_pos.mpr h
  have hshow : (inferShowName filenames).showName = some w0 := by
    simp only [inferShowName, hcond1, hcond2, Bool.false_eq_true, if_false, hpick]
    split_ifs <;> rfl
  have hCN : ∀ n, n ∈ ((tally (extractedNames filenames)).map Prod.fst).filter
      (fun n => decide (some n ≠ some w0)) ↔ n ∈ extractedNames filenames ∧ n ≠ w0 := by
    intro n
    rw [List.mem_filter, tally_keys_mem]
    simp
  have hCNnodup : (((tally (extractedNames filenames)).map Prod.fst).filter
      (fun n => decide (some n ≠ some w0))).Nodup :=
    List.Nodup.sublist (List.filter_sublist _) (tally_keys_nodup _)
  have hCNempty : ((((tally (extractedNames filenames)).map Prod.fst).filter
      (fun n => decide (some n ≠ some w0))).isEmpty = true) ↔
      ∀ n ∈ extractedNames filenames, n = w0 := by
    rw [List.isEmpty_iff]
    constructor
    · intro hem n hn
      by_contra hne2
      have hx := (hCN n).mpr ⟨hn, hne2⟩
      rw [hem] at hx
      simp at hx
    · intro hall
      rw [List.eq_nil_iff_forall_not_mem]
      intro n hn
      obtain ⟨hn1, hn2⟩ := (hCN n).mp hn
      exact hn2 (hall n hn1)
  have hCSgen : (inferShowName filenames).conflictingNames =
      (if (((tally (extractedNames filenames)).map Prod.fst).filter
          (fun n => decide (some n ≠ some w0))).isEmpty then none
       else some (((tally (extractedNames filenames)).map Prod.fst).filter
          (fun n => decide (some n ≠ some w0)))) → ConflictSpec filenames w0 := by
    intro hcn
    constructor
    · intro hall
      rw [hcn, if_pos (hCNempty.mpr hall)]
    · intro hex2
      obtain ⟨n0, hn0, hne0⟩ := hex2
      have hmemCN : n0 ∈ ((tally (extractedNames filenames)).map Prod.fst).filter
          (fun n => decide (some n ≠ some w0)) := (hCN n0).mpr ⟨hn0, hne0⟩
      have hne3 : ((tally (extractedNames filenames)).map Prod.fst).filter
          (fun n => decide (some n ≠ some w0)) ≠ [] := by
        intro hnil
        rw [hnil] at hmemCN
        simp at hmemCN
      have hnotempty : (((tally (extractedNames filenames)).map Prod.fst).filter
          (fun n => decide (some n ≠ some w0))).isEmpty = false := by
        cases hcc : ((tally (extractedNames filenames)).map Prod.fst).filter
            (fun n => decide (some n ≠ some w0)) with
        | nil => exact absurd hcc hne3
        | cons a t => rfl
      rw [hcn, if_neg (by rw [hnotempty]; simp)]
      exact ⟨_, rfl, hne3, hCNnodup, hCN⟩
  constructor
  · rw [hshow]
    simp
  intro w hw
  rw [hshow] at hw
  injection hw with hw1
  subst hw1
  refine ⟨hmem0, hmax0, ?_, ?_, ?_⟩
  · intro hpct
    have hnat := (pctEq100_iff hlen).mp hpct
    simp only [inferShowName, hcond1, hcond2, Bool.false_eq_true, if_false, hpick]
    rw [if_pos hnat]
  · intro hge hlt
    have hnat1 : 80 * (extractedNames filenames).length ≤
        (extractedNames filenames).count w0 * 100 := (pct80_iff hlen).mp hge
    have hnat2 : ¬((extractedNames filenames).count w0 * 100 =
        (extractedNames filenames).length * 100) := by
      intro hc
      exact absurd ((pctEq100_iff hlen).mpr hc) (ne_of_lt hlt)
    have hres : inferShowName filenames = ⟨some w0, Confidence.medium,
        if (((tally (extractedNames filenames)).map Prod.fst).filter
            (fun n => decide (some n ≠ some w0))).isEmpty then none
        else some (((tally (extractedNames filenames)).map Prod.fst).filter
            (fun n => decide (some n ≠ some w0)))⟩ := by
      simp only [inferShowName, hcond1, hcond2, Bool.false_eq_true, if_false, hpick]
      rw [if_neg hnat2, if_pos hnat1]
    refine ⟨by rw [hres], hCSgen (by rw [hres])⟩
  · intro hlt80
    have hnat1 : ¬(80 * (extractedNames filenames).length ≤
        (extractedNames filenames).count w0 * 100) := by
      intro hc
      exact absurd ((pct80_iff hlen).mpr hc) (not_le.mpr hlt80)
    have hnat2 : ¬((extractedNames filenames).count w0 * 100 =
        (extractedNames filenames).length * 100) := by
      intro hc
      have h100 := (pctEq100_iff hlen).mpr hc
      rw [h100] at hlt80
      norm_num at hlt80
    have hres : inferShowName filenames = ⟨some w0, Confidence.low,
        if (((tally (extractedNames filenames)).map Prod.fst).filter
            (fun n => decide (some n ≠ some w0))).isEmpty then none
        else some (((tally (extractedNames filenames)).map Prod.fst).filter
            (fun n => decide (some n ≠ some w0)))⟩ := by
      simp only [inferShowName, hcond1, hcond2, Bool.false_eq_true, if_false, hpick]
      rw [if_neg hnat2, if_neg hnat1]
    refine ⟨by rw [hres], hCSgen (by rw [hres])⟩

/-- Witness for the C1 theorem: a concrete unanimous file list lands in the
high tier with no conflicting names. -/
theorem inferShowName_spec_witness :
    "The Rookie" ∈ extractedNames ["The.Rookie.S04E01.mkv", "The.Rookie.S04E02.mkv"] ∧
    inferShowName ["The.Rookie.S04E01.mkv", "The.Rookie.S04E02.mkv"] =
      ⟨some "The Rookie", Confidence.high, none⟩ := by
  have hthm := inferShowName_spec ["The.Rookie.S04E01.mkv", "The.Rookie.S04E02.mkv"]
    (by decide)
  have hw := hthm.2 "The Rookie" (by decide)
  refine ⟨hw.1, ?_⟩
  apply hw.2.2.1
  rw [show (extractedNames ["The.Rookie.S04E01.mkv", "The.Rookie.S04E02.mkv"]).count
      "The Rookie" = 2 from by decide,
    show (extractedNames ["The.Rookie.S04E01.mkv", "The.Rookie.S04E02.mkv"]).length = 2
      from by decide]
  norm_num

/-! ## C3: the rename planner -/

theorem pathJoin_ne_empty (dir name : String) : pathJoin dir name ≠ "" := by
  intro h0
  have hlen := congrArg String.length h0
  unfold pathJoin at hlen
  rw [String.length_append, String.length_append] at hlen
  have h1 : ("/" : String).length = 1 := by decide
  have h4 : ("" : String).length = 0 := by decide
  rw [h1, h4] at hlen
  omega

theorem planNewName_ne_empty (a b c d : String) : a ++ ".S" ++ b ++ "E" ++ c ++ d ≠ "" := by
  intro h0
  have hlen := congrArg String.length h0
  rw [String.length_append, String.length_append, String.length_append,
    String.length_append, String.length_append] at hlen
  have h2 : (".S" : String).length = 2 := by decide
  have h3 : ("E" : String).length = 1 := by decide
  have h4 : ("" : String).length = 0 := by decide
  rw [h2, h3, h4] at hlen
  omega

/-- C3: the planner builds exactly one `RenameOperation` per input file, in
order; for each file the operation is: skipped with reason "No S##E## pattern
found" when no marker is found; skipped with reason "Show name not found in
filename" when the match verifier rejects the confirmed name; otherwise not
skipped, with `newName = <normalized-show-name>.S<season>E<episode><ext>`
where the extension is taken verbatim (case included) from the filename's
last dot-segment by `extname`.  Every produced operation satisfies the
invariant: skipped implies empty `newPath`/`newName` and a populated reason
from the fixed set; not skipped implies non-empty `newPath`/`newName` and no
reason. -/
theorem operations_spec (resolvedFolderPath showName : String) (files : List String) :
    ((operations resolvedFolderPath showName files).length = files.length ∧
      ∀ (i : Nat) (hi : i < files.length)
        (hi2 : i < (operations resolvedFolderPath showName files).length),
        (operations resolvedFolderPath showName files).get ⟨i, hi2⟩ =
          planOperation resolvedFolderPath showName (normalizeShowName showName)
            (files.get ⟨i, hi⟩)) ∧
    ∀ file : String,
      (extractSeasonEpisode file = none →
        planOperation resolvedFolderPath showName (normalizeShowName showName) file =
          ⟨pathJoin resolvedFolderPath file, "", file, "", true,
            some "No S##E## pattern found"⟩) ∧
      (∀ se, extractSeasonEpisode file = some se →
        showNameMatchesFilename showName file = false →
        planOperation resolvedFolderPath showName (normalizeShowName showName) file =
          ⟨pathJoin resolvedFolderPath file, "", file, "", true,
            some "Show name not found in filename"⟩) ∧
      (∀ se, extractSeasonEpisode file = some se →
        showNameMatchesFilename showName file = true →
        planOperation resolvedFolderPath showName (normalizeShowName showName) file =
          ⟨pathJoin resolvedFolderPath file,
            pathJoin resolvedFolderPath (normalizeShowName showName ++ ".S" ++ se.season ++
              "E" ++ se.episode ++ extname file),
            file,
            normalizeShowName showName ++ ".S" ++ se.season ++ "E" ++ se.episode ++
              extname file,
            false, none⟩) ∧
      ((planOperation resolvedFolderPath showName (normalizeShowName showName) file).skipped
          = true →
        (planOperation resolvedFolderPath showName (normalizeShowName showName) file).newPath
            = "" ∧
        (planOperation resolvedFolderPath showName (normalizeShowName showName) file).newName
            = "" ∧
        ((planOperation resolvedFolderPath showName (normalizeShowName showName) file).reason
            = some "No S##E## pattern found" ∨
          (planOperation resolvedFolderPath showName (normalizeShowName showName) file).reason
            = some "Show name not found in filename")) ∧
      ((planOperation resolvedFolderPath showName (normalizeShowName showName) file).skipped
          = false →
        (planOperation resolvedFolderPath showName (normalizeShowName showName) file).newPath
            ≠ "" ∧
        (planOperation resolvedFolderPath showName (normalizeShowName showName) file).newName
            ≠ "" ∧
        (planOperation resolvedFolderPath showName (normalizeShowName showName) file).reason
            = none) := by
  refine ⟨⟨List.length_map _ _, ?_⟩, ?_⟩
  · intro i hi hi2
    unfold operations
    simp [List.get_eq_getElem, List.getElem_map, operations]
  · intro file
    have hb1 : extractSeasonEpisode file = none →
        planOperation resolvedFolderPath showName (normalizeShowName showName) file =
          ⟨pathJoin resolvedFolderPath file, "", file, "", true,
            some "No S##E## pattern found"⟩ := by
      intro hnone
      unfold planOperation
      rw [hnone]
    have hb2 : ∀ se, extractSeasonEpisode file = some se →
        showNameMatchesFilename showName file = false →
        planOperation resolvedFolderPath showName (normalizeShowName showName) file =
          ⟨pathJoin resolvedFolderPath file, "", file, "", true,
            some "Show name not found in filename"⟩ := by
      intro se hsome hmatch
      unfold planOperation
      rw [hsome]
      show (if showNameMatchesFilename showName file = true then _ else _) = _
      rw [if_neg (by rw [hmatch]; simp)]
    have hb3 : ∀ se, extractSeasonEpisode file = some se →
        showNameMatchesFilename showName file = true →
        planOperation resolvedFolderPath showName (normalizeShowName showName) file =
          ⟨pathJoin resolvedFolderPath file,
            pathJoin resolvedFolderPath (normalizeShowName showName ++ ".S" ++ se.season ++
              "E" ++ se.episode ++ extname file),
            file,
            normalizeShowName showName ++ ".S" ++ se.season ++ "E" ++ se.episode ++
              extname file,
            false, none⟩ := by
      intro se hsome hmatch
      unfold planOperation
      rw [hsome]
      show (if showNameMatchesFilename showName file = true then _ else _) = _
      rw [if_pos hmatch]
    refine ⟨hb1, hb2, hb3, ?_, ?_⟩
    · cases hse : extractSeasonEpisode file with
      | none =>
        rw [hb1 hse]
        intro _
        exact ⟨rfl, rfl, Or.inl rfl⟩
      | some se =>
        cases hm : showNameMatchesFilename showName file with
        | false =>
          rw [hb2 se hse hm]
          intro _
          exact ⟨rfl, rfl, Or.inr rfl⟩
        | true =>
          rw [hb3 se hse hm]
          intro hskip
          exact absurd hskip (by simp)
    · cases hse : extractSeasonEpisode file with
      | none =>
        rw [hb1 hse]
        intro hskip
        exact absurd hskip (by simp)
      | some se =>
        cases hm : showNameMatchesFilename showName file with
        | false =>
          rw [hb2 se hse hm]
          intro hskip
          exact absurd hskip (by simp)
        | true =>
          rw [hb3 se hse hm]
          intro _
          exact ⟨pathJoin_ne_empty _ _, planNewName_ne_empty _ _ _ _, rfl⟩

/-- Witness for the C3 theorem: planning the spec's scenario file, including
the concrete new name "The.Rookie.S04E01.mkv". -/
theorem operations_spec_witness :
    planOperation "/tv" "The Rookie" (normalizeShowName "The Rookie")
        "The.Rookie.S04E01.720p.mkv" =
      ⟨pathJoin "/tv" "The.Rookie.S04E01.720p.mkv",
        pathJoin "/tv" (normalizeShowName "The Rookie" ++ ".S" ++ "04" ++ "E" ++ "01" ++
          extname "The.Rookie.S04E01.720p.mkv"),
        "The.Rookie.S04E01.720p.mkv",
        normalizeShowName "The Rookie" ++ ".S" ++ "04" ++ "E" ++ "01" ++
          extname "The.Rookie.S04E01.720p.mkv",
        false, none⟩ ∧
    normalizeShowName "The Rookie" ++ ".S" ++ "04" ++ "E" ++ "01" ++
        extname "The.Rookie.S04E01.720p.mkv" = "The.Rookie.S04E01.mkv" := by
  constructor
  · exact ((operations_spec "/tv" "The Rookie" ["The.Rookie.S04E01.720p.mkv"]).2
      "The.Rookie.S04E01.720p.mkv").2.2.1 ⟨"04", "01"⟩ (by decide) (by decide)
  · decide

/-! ## C2: the season/episode marker -/

theorem digitStr_one {c1 : Char} (h1 : c1.isDigit = true) : DigitStr [c1] := by
  refine ⟨by simp, by simp, ?_⟩
  intro x hx
  rcases List.mem_cons.mp hx with rfl | hx2
  · exact h1
  · simp at hx2

theorem digitStr_two {c1 c2 : Char} (h1 : c1.isDigit = true) (h2 : c2.isDigit = true) :
    DigitStr [c1, c2] := by
  refine ⟨by simp, by simp, ?_⟩
  intro x hx
  rcases List.mem_cons.mp hx with rfl | hx2
  · exact h1
  rcases List.mem_cons.mp hx2 with rfl | hx3
  · exact h2
  · simp at hx3

theorem digitStr_cases {s : List Char} (h : DigitStr s) :
    (∃ d, s = [d] ∧ d.isDigit = true) ∨
    (∃ d1 d2, s = [d1, d2] ∧ d1.isDigit = true ∧ d2.isDigit = true) := by
  obtain ⟨h1, h2, h3⟩ := h
  cases s with
  | nil => simp at h1
  | cons a t =>
    cases t with
    | nil => exact Or.inl ⟨a, rfl, h3 a (by simp)⟩
    | cons b t2 =>
      cases t2 with
      | nil => exact Or.inr ⟨a, b, rfl, h3 a (by simp), h3 b (by simp)⟩
      | cons d t3 =>
        simp at h2

theorem isDigit_not_Ee {c : Char} (h : c.isDigit = true) : ¬(c = 'E' ∨ c = 'e') := by
  rintro (rfl | rfl) <;> exact absurd h (by decide)

theorem take12digits_sound {l d r : List Char} (h : take12digits l = some (d, r)) :
    l = d ++ r ∧ DigitStr d ∧
      ∀ d2 r2, l = d2 ++ r2 → DigitStr d2 → d2.length ≤ d.length := by
  cases l with
  | nil => simp [take12digits] at h
  | cons c1 t =>
    cases t with
    | nil =>
      by_cases h1 : c1.isDigit = true
      · simp only [take12digits] at h
        rw [if_pos h1] at h
        simp only [Option.some_inj, Prod.mk.injEq] at h
        obtain ⟨hd, hr⟩ := h
        subst hd
        subst hr
        refine ⟨rfl, digitStr_one h1, ?_⟩
        intro d2 r2 hl2 hd2
        have hlen := congrArg List.length hl2
        simp only [List.length_append, List.length_cons, List.length_nil] at hlen
        obtain ⟨hd21, _, _⟩ := hd2
        simp only [List.length_cons, List.length_nil]
        omega
      · simp only [take12digits] at h
        rw [if_neg h1] at h
        simp at h
    | cons c2 r0 =>
      simp only [take12digits] at h
      by_cases h1 : c1.isDigit = true
      · rw [if_pos h1] at h
        by_cases h2 : c2.isDigit = true
        · rw [if_pos h2] at h
          simp only [Option.some_inj, Prod.mk.injEq] at h
          obtain ⟨hd, hr⟩ := h
          subst hd
          subst hr
          refine ⟨rfl, digitStr_two h1 h2, ?_⟩
          intro d2 r2 _ hd2
          obtain ⟨_, hd22, _⟩ := hd2
          simp only [List.length_cons, List.length_nil]
          omega
        · rw [if_neg h2] at h
          simp only [Option.some_inj, Prod.mk.injEq] at h
          obtain ⟨hd, hr⟩ := h
          subst hd
          subst hr
          refine ⟨rfl, digitStr_one h1, ?_⟩
          intro d2 r2 hl2 hd2
          rcases digitStr_cases hd2 with ⟨x, rfl, _⟩ | ⟨x, y, rfl, _, hy⟩
          · simp
          · exfalso
            simp only [List.cons_append, List.nil_append] at hl2
            injection hl2 with ha hl2
            injection hl2 with hb _
            subst hb
            exact absurd hy (by simp [h2])
      · rw [if_neg h1] at h
        simp at h

theorem take12digits_complete {e post : List Char} (h : DigitStr e) :
    take12digits (e ++ post) ≠ none := by
  rcases digitStr_cases h with ⟨d, rfl, hd⟩ | ⟨d1, d2, rfl, hd1, hd2⟩
  · cases post with
    | nil => simp [take12digits, hd]
    | cons p t =>
      show take12digits (d :: p :: t) ≠ none
      by_cases hp : p.isDigit = true <;> simp [take12digits, hd, hp]
  · show take12digits (d1 :: d2 :: post) ≠ none
    simp [take12digits, hd1, hd2]

theorem matchEe_some {l ep : List Char} (h : matchEe l = some ep) :
    ∃ E r, l = E :: r ∧ (E = 'E' ∨ E = 'e') ∧ (∃ post, r = ep ++ post) ∧ DigitStr ep ∧
      ∀ e2 post2, r = e2 ++ post2 → DigitStr e2 → e2.length ≤ ep.length := by
  cases l with
  | nil => simp [matchEe] at h
  | cons E r =>
    simp only [matchEe] at h
    by_cases hE : (E = 'E' ∨ E = 'e')
    · rw [if_pos hE] at h
      cases ht : take12digits r with
      | none =>
        rw [ht] at h
        simp at h
      | some p =>
        obtain ⟨d, rr⟩ := p
        rw [ht] at h
        simp only [Option.map_some', Option.some_inj] at h
        subst h
        obtain ⟨hl, hd, hmax⟩ := take12digits_sound ht
        exact ⟨E, r, rfl, hE, ⟨rr, hl⟩, hd, fun e2 post2 h2 hd2 => hmax e2 post2 h2 hd2⟩
    · rw [if_neg hE] at h
      simp at h

theorem matchEe_none {l : List Char} (h : matchEe l = none) :
    ∀ E ep post, l = E :: (ep ++ post) → (E = 'E' ∨ E = 'e') → DigitStr ep → False := by
  intro E ep post hl hE hd
  subst hl
  simp only [matchEe] at h
  rw [if_pos hE] at h
  cases ht : take12digits (ep ++ post) with
  | none => exact take12digits_complete hd ht
  | some p =>
    rw [ht] at h
    simp at h

theorem matchAfterS_sound {l s e : List Char} (h : matchAfterS l = some (s, e)) :
    ParseAfterS l s e ∧ ∀ e2, ParseAfterS l s e2 → e2.length ≤ e.length := by
  cases l with
  | nil => simp [matchAfterS] at h
  | cons c1 t =>
    cases t with
    | nil => simp [matchAfterS] at h
    | cons c2 r =>
      simp only [matchAfterS] at h
      by_cases h1 : c1.isDigit = true
      case neg =>
        rw [if_neg h1] at h
        simp at h
      rw [if_pos h1] at h
      by_cases h2 : c2.isDigit = true
      · rw [if_pos h2] at h
        cases hEe : matchEe r with
        | some ep =>
          rw [hEe] at h
          simp only [Option.some_inj, Prod.mk.injEq] at h
          obtain ⟨hs, he⟩ := h
          subst hs
          subst he
          obtain ⟨E, r2, hr, hE, ⟨post, hpost⟩, hde, hmax⟩ := matchEe_some hEe
          subst hr
          constructor
          · exact ⟨E, post, by simp [hpost], hE, digitStr_two h1 h2, hde⟩
          · rintro e2 ⟨E2, post2, hl2, hE2, hs2, he2⟩
            simp only [List.cons_append, List.nil_append] at hl2
            injection hl2 with ha hl2
            injection hl2 with hb hl2
            injection hl2 with hc hl2
            exact hmax e2 post2 hl2 he2
        | none =>
          rw [hEe] at h
          have hnone2 : matchEe (c2 :: r) = none := by
            simp only [matchEe]
            rw [if_neg (isDigit_not_Ee h2)]
          rw [hnone2] at h
          simp at h
      · rw [if_neg h2] at h
        cases hEe : matchEe (c2 :: r) with
        | some ep =>
          rw [hEe] at h
          simp only [Option.some_inj, Prod.mk.injEq] at h
          obtain ⟨hs, he⟩ := h
          subst hs
          subst he
          obtain ⟨E, r2, hr, hE, ⟨post, hpost⟩, hde, hmax⟩ := matchEe_some hEe
          injection hr with hc2 hr2
          subst hc2
          subst hr2
          constructor
          · exact ⟨c2, post, by simp [hpost], hE, digitStr_one h1, hde⟩
          · rintro e2 ⟨E2, post2, hl2, hE2, hs2, he2⟩
            simp only [List.cons_append, List.nil_append] at hl2
            injection hl2 with ha hl2
            injection hl2 with hb hl2
            exact hmax e2 post2 hl2 he2
        | none =>
          rw [hEe] at h
          simp at h

theorem matchAfterS_none {l : List Char} (h : matchAfterS l = none) :
    ∀ s e, ¬ ParseAfterS l s e := by
  rintro s e ⟨E, post, hl, hE, hs, he⟩
  rcases digitStr_cases hs with ⟨d, rfl, hd⟩ | ⟨d1, d2, rfl, hd1, hd2⟩
  · subst hl
    simp only [List.cons_append, List.nil_append] at h
    simp only [matchAfterS] at h
    rw [if_pos hd] at h
    have hEd : E.isDigit = false := by
      rcases hE with rfl | rfl <;> decide
    rw [if_neg (by simp [hEd])] at h
    cases hme : matchEe (E :: (e ++ post)) with
    | some ep =>
      rw [hme] at h
      simp at h
    | none => exact matchEe_none hme E e post rfl hE he
  · subst hl
    simp only [List.cons_append, List.nil_append] at h
    simp only [matchAfterS] at h
    rw [if_pos hd1, if_pos hd2] at h
    cases hme : matchEe (E :: (e ++ post)) with
    | some ep =>
      rw [hme] at h
      simp at h
    | none => exact matchEe_none hme E e post rfl hE he

theorem markerParse_zero {c : Char} {l s e : List Char} :
    MarkerParseAt (c :: l) 0 s e ↔ ((c = 'S' ∨ c = 's') ∧ ParseAfterS l s e) := by
  constructor
  · rintro ⟨pre, S, E, post, heq, hlen, hS, hE, hs, he⟩
    have hpre : pre = [] := List.eq_nil_of_length_eq_zero hlen
    subst hpre
    rw [List.nil_append] at heq
    injection heq with h1 h2
    subst h1
    exact ⟨hS, E, post, h2, hE, hs, he⟩
  · rintro ⟨hS, E, post, heq, hE, hs, he⟩
    exact ⟨[], c, E, post, by simp [heq], rfl, hS, hE, hs, he⟩

theorem markerParse_succ {c : Char} {l s e : List Char} {i : Nat} :
    MarkerParseAt (c :: l) (i + 1) s e ↔ MarkerParseAt l i s e := by
  constructor
  · rintro ⟨pre, S, E, post, heq, hlen, hS, hE, hs, he⟩
    cases pre with
    | nil => simp at hlen
    | cons p0 pre2 =>
      rw [List.cons_append] at heq
      injection heq with h1 h2
      exact ⟨pre2, S, E, post, h2, by simpa using hlen, hS, hE, hs, he⟩
  · rintro ⟨pre, S, E, post, heq, hlen, hS, hE, hs, he⟩
    exact ⟨c :: pre, S, E, post, by rw [List.cons_append, heq], by simp [hlen], hS, hE, hs, he⟩

theorem markerAt_nil (i : Nat) : ¬ MarkerAt [] i := by
  rintro ⟨s, e, pre, S, E, post, heq, _, _, _, _, _⟩
  exact absurd heq.symm (by simp)

theorem markerAt_zero {c : Char} {l : List Char} :
    MarkerAt (c :: l) 0 ↔ ∃ s e, (c = 'S' ∨ c = 's') ∧ ParseAfterS l s e := by
  constructor
  · rintro ⟨s, e, hp⟩
    obtain ⟨h1, h2⟩ := markerParse_zero.mp hp
    exact ⟨s, e, h1, h2⟩
  · rintro ⟨s, e, h1, h2⟩
    exact ⟨s, e, markerParse_zero.mpr ⟨h1, h2⟩⟩

theorem markerAt_succ {c : Char} {l : List Char} {i : Nat} :
    MarkerAt (c :: l) (i + 1) ↔ MarkerAt l i := by
  constructor
  · rintro ⟨s, e, hp⟩
    exact ⟨s, e, markerParse_succ.mp hp⟩
  · rintro ⟨s, e, hp⟩
    exact ⟨s, e, markerParse_succ.mpr hp⟩

theorem findSEsplit_spec :
    ∀ l : List Char,
      (findSEsplit l = none → ∀ i, ¬ MarkerAt l i) ∧
      (∀ pre s e, findSEsplit l = some (pre, s, e) →
        MarkerParseAt l pre.length s e ∧
        (∀ j, MarkerAt l j → pre.length ≤ j) ∧
        (∀ e2, MarkerParseAt l pre.length s e2 → e2.length ≤ e.length)) := by
  intro l
  induction l with
  | nil =>
    refine ⟨fun _ i => markerAt_nil i, ?_⟩
    intro pre s e h
    simp [findSEsplit] at h
  | cons c rest ih =>
    by_cases hS : (c = 'S' ∨ c = 's')
    · cases hAS : matchAfterS rest with
      | some p =>
        obtain ⟨s0, e0⟩ := p
        have heq : findSEsplit (c :: rest) = some ([], s0, e0) := by
          simp only [findSEsplit]
          rw [if_pos hS, hAS]
        obtain ⟨hparse0, hmax0⟩ := matchAfterS_sound hAS
        refine ⟨?_, ?_⟩
        · intro hcontra
          rw [heq] at hcontra
          simp at hcontra
        · intro pre s e h
          rw [heq] at h
          simp only [Option.some_inj, Prod.mk.injEq] at h
          obtain ⟨hpre, hs, he⟩ := h
          subst hpre
          subst hs
          subst he
          refine ⟨markerParse_zero.mpr ⟨hS, hparse0⟩, fun j _ => Nat.zero_le j, ?_⟩
          intro e2 h2
          exact hmax0 e2 (markerParse_zero.mp h2).2
      | none =>
        have hno0 : ∀ s e, ¬ MarkerParseAt (c :: rest) 0 s e := by
          intro s e hp
          exact matchAfterS_none hAS s e (markerParse_zero.mp hp).2
        have hstep : findSEsplit (c :: rest) =
            (findSEsplit rest).map (fun t => (c :: t.1, t.2.1, t.2.2)) := by
          simp only [findSEsplit]
          rw [if_pos hS, hAS]
        cases hrec : findSEsplit rest with
        | none =>
          rw [hrec] at hstep
          refine ⟨?_, ?_⟩
          · intro _ i
            cases i with
            | zero =>
              rintro ⟨s, e, hp⟩
              exact hno0 s e hp
            | succ j => exact fun hm => (ih.1 hrec) j (markerAt_succ.mp hm)
          · intro pre s e h
            rw [hstep] at h
            simp at h
        | some t =>
          obtain ⟨pre0, s0, e0⟩ := t
          rw [hrec] at hstep
          simp only [Option.map_some'] at hstep
          refine ⟨?_, ?_⟩
          · intro hcontra
            rw [hstep] at hcontra
            simp at hcontra
          · intro pre s e h
            rw [hstep] at h
            simp only [Option.some_inj, Prod.mk.injEq] at h
            obtain ⟨hpre, hs, he⟩ := h
            subst hpre
            subst hs
            subst he
            obtain ⟨ihp, ihmin, ihmax⟩ := ih.2 pre0 s0 e0 hrec
            refine ⟨?_, ?_, ?_⟩
            · show MarkerParseAt (c :: rest) (pre0.length + 1) s0 e0
              exact markerParse_succ.mpr ihp
            · intro j hm
              cases j with
              | zero =>
                exfalso
                obtain ⟨s1, e1, hp1⟩ := hm
                exact hno0 s1 e1 hp1
              | succ j2 =>
                have := ihmin j2 (markerAt_succ.mp hm)
                simp only [List.length_cons]
                omega
            · intro e2 h2
              exact ihmax e2 (markerParse_succ.mp h2)
    · have hno0 : ∀ s e, ¬ MarkerParseAt (c :: rest) 0 s e := by
        intro s e hp
        exact hS (markerParse_zero.mp hp).1
      have hstep : findSEsplit (c :: rest) =
          (findSEsplit rest).map (fun t => (c :: t.1, t.2.1, t.2.2)) := by
        simp only [findSEsplit]
        rw [if_neg hS]
      cases hrec : findSEsplit rest with
      | none =>
        rw [hrec] at hstep
        refine ⟨?_, ?_⟩
        · intro _ i
          cases i with
          | zero =>
            rintro ⟨s, e, hp⟩
            exact hno0 s e hp
          | succ j => exact fun hm => (ih.1 hrec) j (markerAt_succ.mp hm)
        · intro pre s e h
          rw [hstep] at h
          simp at h
      | some t =>
        obtain ⟨pre0, s0, e0⟩ := t
        rw [hrec] at hstep
        simp only [Option.map_some'] at hstep
        refine ⟨?_, ?_⟩
        · intro hcontra
          rw [hstep] at hcontra
          simp at hcontra
        · intro pre s e h
          rw [hstep] at h
          simp only [Option.some_inj, Prod.mk.injEq] at h
          obtain ⟨hpre, hs, he⟩ := h
          subst hpre
          subst hs
          subst he
          obtain ⟨ihp, ihmin, ihmax⟩ := ih.2 pre0 s0 e0 hrec
          refine ⟨?_, ?_, ?_⟩
          · show MarkerParseAt (c :: rest) (pre0.length + 1) s0 e0
            exact markerParse_succ.mpr ihp
          · intro j hm
            cases j with
            | zero =>
              exfalso
              obtain ⟨s1, e1, hp1⟩ := hm
              exact hno0 s1 e1 hp1
            | succ j2 =>
              have := ihmin j2 (markerAt_succ.mp hm)
              simp only [List.length_cons]
              omega
          · intro e2 h2
            exact ihmax e2 (markerParse_succ.mp h2)

theorem pad2_length {s : List Char} (h1 : 1 ≤ s.length) (h2 : s.length ≤ 2) :
    (pad2 s).length = 2 := by
  unfold pad2
  by_cases h : s.length < 2
  · rw [if_pos h]
    rw [List.length_append, List.length_replicate]
    omega
  · rw [if_neg h]
    omega

/-- C2: for every filename containing an `S##E##` marker (one or two ASCII
digits after `S`/`s`, one or two after `E`/`e`), `extractSeasonEpisode`
returns the season and episode digits of the first (leftmost) such
occurrence — the episode taking the longer admissible digit run, as the
greedy regex does — each left-zero-padded to exactly two characters; for a
filename without such a marker it returns null. -/
theorem extractSeasonEpisode_spec (filename : String) :
    (extractSeasonEpisode filename = none → ∀ i, ¬ MarkerAt filename.data i) ∧
    (∀ r, extractSeasonEpisode filename = some r →
      ∃ i s e, MarkerParseAt filename.data i s e ∧
        (∀ j, MarkerAt filename.data j → i ≤ j) ∧
        (∀ e2, MarkerParseAt filename.data i s e2 → e2.length ≤ e.length) ∧
        r.season = String.mk (pad2 s) ∧ r.episode = String.mk (pad2 e) ∧
        r.season.length = 2 ∧ r.episode.length = 2) := by
  constructor
  · intro hnone
    unfold extractSeasonEpisode at hnone
    cases hf : findSEsplit filename.data with
    | none => exact (findSEsplit_spec filename.data).1 hf
    | some t =>
      obtain ⟨pre, s, e⟩ := t
      rw [hf] at hnone
      simp at hnone
  · intro r hr
    unfold extractSeasonEpisode at hr
    cases hf : findSEsplit filename.data with
    | none =>
      rw [hf] at hr
      simp at hr
    | some t =>
      obtain ⟨pre, s, e⟩ := t
      rw [hf] at hr
      simp only [Option.some_inj] at hr
      subst hr
      obtain ⟨hp, hmin, hmax⟩ := (findSEsplit_spec filename.data).2 pre s e hf
      refine ⟨pre.length, s, e, hp, hmin, hmax, rfl, rfl, ?_, ?_⟩
      · show (pad2 s).length = 2
        obtain ⟨pre2, S, E, post, heq, hlen, hSc, hEc, hds, hde⟩ := hp
        exact pad2_length hds.1 hds.2.1
      · show (pad2 e).length = 2
        obtain ⟨pre2, S, E, post, heq, hlen, hSc, hEc, hds, hde⟩ := hp
        exact pad2_length hde.1 hde.2.1

/-- Witness for the C2 theorem at a concrete lower-case single-digit marker. -/
theorem extractSeasonEpisode_spec_witness :
    ∃ i s e, MarkerParseAt ("Show.s4e7.mkv" : String).data i s e ∧
      (∀ j, MarkerAt ("Show.s4e7.mkv" : String).data j → i ≤ j) ∧
      (∀ e2, MarkerParseAt ("Show.s4e7.mkv" : String).data i s e2 → e2.length ≤ e.length) ∧
      (SeasonEpisode.mk "04" "07").season = String.mk (pad2 s) ∧
      (SeasonEpisode.mk "04" "07").episode = String.mk (pad2 e) ∧
      (SeasonEpisode.mk "04" "07").season.length = 2 ∧
      (SeasonEpisode.mk "04" "07").episode.length = 2 :=
  (extractSeasonEpisode_spec "Show.s4e7.mkv").2 ⟨"04", "07"⟩ (by decide)
